import Mathlib

/-!
Verification of the dependency-graph builder of snakefood
(`src/lib/python/snakefood/gendeps.py`), against its natural-language
specification.

The embedding models file paths as lists of path components
(`/proj/pkg/__init__.py` becomes `["proj", "pkg", "__init__.py"]`), so
`basename` is the last component and `dirname` drops it.  The two external
collaborators that the script consumes — the import extractor
`find_dependencies` (from `find.py`) and the node-identity resolver
`relfile` (from `roots.py`), neither of which is part of the verified
source — are fields of the environment `Env`; a concrete `relfile`
following the specification's description is provided separately as
`relfileSpec` for concrete runs.

Python data is embedded as follows: Python sets become duplicate-free
lists grown by membership-guarded insertion, the `defaultdict(set)`
`allfiles` becomes an association list from node identities to lists of
targets, and the `TypeError` raised by subscripting `None` (which the
script can hit on `to_[0]` when `relfile` returns `None` in internal
mode) is modelled by the `Except PyErr` monad.  The ghost field
`extracted` records, in order, every invocation of the import extractor;
it changes in lockstep with `processed` and is used to state
once-per-file properties.
-/

namespace Snakefood

/-- An absolute file path, as its list of path components. -/
abbrev Path := List String

/-- Python `os.path.basename`: the last path component (empty for the root path). -/
def basename (fn : Path) : String := fn.getLast?.getD ""

/-- Python `os.path.dirname`: the path without its last component. -/
def dirname (fn : Path) : Path := fn.dropLast

/-- The package collapse rule, applied inline at gendeps.py:122-123 (for the
source file) and gendeps.py:137-138 (for every dependency target): a package
initializer file is replaced by its containing directory. -/
def collapse (fn : Path) : Path :=
  if basename fn = "__init__.py" then dirname fn else fn

/-- A node identity as returned by `relfile`: a `(root, relative path)` pair. -/
abbrev NodeId := Path × Path

/-- A member of one of the `allfiles` sets.  Python lets these sets hold the
`(None, None)` sentinel tuple, real `(root, relative)` tuples, and — because
gendeps.py:143 adds `to_` without a `None` check — the bare `None` object. -/
inductive Target where
  | sentinel : Target
  | pyNone : Target
  | node : NodeId → Target
deriving DecidableEq

/-- The classified error kinds `ERROR_IMPORT` and `ERROR_SYMBOL` imported
from `find.py`. -/
inductive ErrKind where
  | errorImport : ErrKind
  | errorSymbol : ErrKind
deriving DecidableEq

/-- A Python runtime fault: subscripting `None` raises `TypeError`. -/
inductive PyErr where
  | typeError : PyErr
deriving DecidableEq

/-- The environment of one run: the import extractor `find_dependencies`
(returning the dependency files and the error records of one file), the
identity resolver `relfile` (with the ignore list already applied), and the
option/root configuration. -/
structure Env where
  deps : Path → List Path × List (ErrKind × String)
  relfile : Path → Option NodeId
  internal : Bool
  follow : Bool
  inroots : List Path

/-- The mutable state of the worklist loop of gendeps.py:103-150:
`allfiles` (the edge mapping), `allerrors`, `processed_files`, the per-round
`newfiles`, and the ghost trace `extracted` of extractor invocations. -/
structure BState where
  allfiles : List (NodeId × List Target)
  allerrors : List (ErrKind × String)
  processed : List Path
  newfiles : List Path
  extracted : List Path
deriving DecidableEq

instance {ε α : Type} [DecidableEq ε] [DecidableEq α] :
    DecidableEq (Except ε α) := fun a b =>
  match a, b with
  | .error e, .error f =>
    if h : e = f then isTrue (by rw [h])
    else isFalse (by intro hc; cases hc; exact h rfl)
  | .error _, .ok _ => isFalse (by intro hc; cases hc)
  | .ok _, .error _ => isFalse (by intro hc; cases hc)
  | .ok x, .ok y =>
    if h : x = y then isTrue (by rw [h])
    else isFalse (by intro hc; cases hc; exact h rfl)

/-- The fresh state at the start of a run. -/
def initState : BState := ⟨[], [], [], [], []⟩

/-- Python `set.add` on a set of paths: append unless already a member. -/
def insertPath (s : List Path) (p : Path) : List Path :=
  if p ∈ s then s else s ++ [p]

/-- The update `allfiles[k].add(t)` on the `defaultdict(set)`: create the key with a
singleton set if absent, otherwise add `t` to the existing set. -/
def addTarget (m : List (NodeId × List Target)) (k : NodeId) (t : Target) :
    List (NodeId × List Target) :=
  match m with
  | [] => [(k, [t])]
  | (k₀, s) :: rest =>
    if k = k₀ then (k₀, if t ∈ s then s else s ++ [t]) :: rest
    else (k₀, s) :: addTarget rest k t

/-- Read the set stored under key `k` (empty if the key is absent). -/
def lookupTargets (m : List (NodeId × List Target)) (k : NodeId) : List Target :=
  match m with
  | [] => []
  | (k₀, s) :: rest => if k = k₀ then s else lookupTargets rest k

/-- Lines 122-123 / 137-140 composed: the node identity of a file is
`relfile` applied to its collapsed path. -/
def resolveId (env : Env) (fn : Path) : Option NodeId :=
  env.relfile (collapse fn)

/-- One iteration of the dependency loop of gendeps.py:135-144 for a single
raw dependency `dfn` of the file whose identity is `from_`: collapse and
resolve the target, apply the internal-only filter (evaluating `to_[0]` on a
`None` result raises `TypeError`), record the edge, and queue the
pre-collapse `dfn`.  The `continue` on line 142 skips both the edge and the
queueing. -/
def processDep (env : Env) (from_ : NodeId) (st : BState) (dfn : Path) :
    Except PyErr BState :=
  let to_ := resolveId env dfn
  if env.internal then
    match to_ with
    | none => .error .typeError
    | some t =>
      if t.1 ∈ env.inroots then
        .ok { st with allfiles := addTarget st.allfiles from_ (.node t),
                      newfiles := insertPath st.newfiles dfn }
      else .ok st
  else
    let tgt : Target := match to_ with
      | none => .pyNone
      | some t => .node t
    .ok { st with allfiles := addTarget st.allfiles from_ tgt,
                  newfiles := insertPath st.newfiles dfn }

/-- The `for dfn in files` loop of gendeps.py:135-144. -/
def runDeps (env : Env) (from_ : NodeId) (st : BState) :
    List Path → Except PyErr BState
  | [] => .ok st
  | dfn :: rest =>
    match processDep env from_ st dfn with
    | .error e => .error e
    | .ok st₁ => runDeps env from_ st₁ rest

/-- The body of the `for fn in fiter` loop, gendeps.py:110-144: skip an
already processed file; otherwise mark it processed, invoke the extractor,
append its errors, collapse and resolve the file itself, drop it when its
identity is `None` (line 128) or fails the internal filter (line 130),
record the `(None, None)` sentinel (line 132), and process its
dependencies. -/
def processFile (env : Env) (st : BState) (fn : Path) : Except PyErr BState :=
  if fn ∈ st.processed then .ok st
  else
    let stp : BState :=
      { st with processed := st.processed ++ [fn],
                extracted := st.extracted ++ [fn] }
    let fe := env.deps fn
    let ste : BState := { stp with allerrors := stp.allerrors ++ fe.2 }
    match resolveId env fn with
    | none => .ok ste
    | some from_ =>
      if env.internal ∧ from_.1 ∉ env.inroots then .ok ste
      else
        runDeps env from_
          { ste with allfiles := addTarget ste.allfiles from_ .sentinel } fe.1

/-- The `for fn in fiter` loop over one worklist. -/
def runWorklist (env : Env) (st : BState) : List Path → Except PyErr BState
  | [] => .ok st
  | fn :: rest =>
    match processFile env st fn with
    | .error e => .error e
    | .ok st₁ => runWorklist env st₁ rest

/-- One round of the `while 1` loop, gendeps.py:108-144: reset `newfiles`
to the empty set (line 109) and run the worklist. -/
def runRound (env : Env) (st : BState) (wl : List Path) : Except PyErr BState :=
  runWorklist env { st with newfiles := [] } wl

/-- Strict ordering on lists, lexicographic over a strict ordering of the
elements; used to model Python's total order on path strings. -/
def lexLt {α : Type} (lt : α → α → Bool) : List α → List α → Bool
  | [], [] => false
  | [], _ :: _ => true
  | _ :: _, [] => false
  | a :: as, b :: bs =>
    if lt a b then true else if lt b a then false else lexLt lt as bs

/-- Strict ordering of characters by code point. -/
def chLt (c d : Char) : Bool := decide (c.toNat < d.toNat)

/-- Strict lexicographic ordering of strings (Python's `<` on `str`). -/
def strLt (a b : String) : Bool := lexLt chLt a.data b.data

/-- Strict ordering of paths, lexicographic over their components. -/
def pathLt (p q : Path) : Bool := lexLt strLt p q

/-- The non-strict path order `p ≤ q` used by `sorted`. -/
def pathLeRel (p q : Path) : Prop := pathLt q p = false

instance : DecidableRel pathLeRel :=
  fun p q => inferInstanceAs (Decidable (pathLt q p = false))

/-- The non-strict string order used by `sorted` on names. -/
def strLeRel (a b : String) : Prop := strLt b a = false

instance : DecidableRel strLeRel :=
  fun a b => inferInstanceAs (Decidable (strLt b a = false))

/-- Python `sorted(...)` on a collection of paths (gendeps.py:150). -/
def sortPaths (l : List Path) : List Path := List.insertionSort pathLeRel l

/-- Python `sorted(...)` on a collection of names (gendeps.py:168). -/
def sortNames (l : List String) : List String := List.insertionSort strLeRel l

/-- The two configuration errors reported through `parser.error`
(gendeps.py:79 and gendeps.py:85): a named input path that does not exist,
and internal-only mode with an empty root set. -/
inductive ConfigError where
  | fileNotExists : Path → ConfigError
  | noPackageRoots : ConfigError
deriving DecidableEq

/-- The outcome of the whole worklist loop: a configuration error raised
before the loop, a propagated Python fault, a completed final state — or
`fuelOut` when the supplied round bound was too small (the termination
theorem shows a sufficient bound always exists). -/
inductive RunResult where
  | configError : ConfigError → RunResult
  | crashed : PyErr → RunResult
  | fuelOut : RunResult
  | finished : BState → RunResult
deriving DecidableEq

/-- The `while 1` loop of gendeps.py:108-150, with an explicit bound on the
number of rounds: run a round; stop unless follow mode is on and `newfiles`
is non-empty (line 147); otherwise continue with the sorted newfiles as the
next worklist (line 150). -/
def runLoop (env : Env) : Nat → BState → List Path → RunResult
  | 0, _, _ => .fuelOut
  | fuel + 1, st, wl =>
    match runRound env st wl with
    | .error e => .crashed e
    | .ok st₁ =>
      if env.follow ∧ st₁.newfiles ≠ [] then
        runLoop env fuel st₁ (sortPaths st₁.newfiles)
      else .finished st₁

/-- The run-level options read from the command line. -/
structure Opts where
  internal : Bool
  follow : Bool
  verbose : Nat

/-- gendeps.py:73-150: validate that every named input path exists
(lines 75-79, erroring on the first one that does not), compute the roots
and reject `--internal` with an empty root set (lines 83-86), then run the
worklist loop from a fresh state.  `fsExists` is the file system's existence
predicate, `findRoots` stands for `find_roots` of `roots.py`, `relf` for
`relfile`, and `deps` for `find_dependencies`. -/
def gendepsRun (fsExists : Path → Bool) (findRoots : List Path → List Path)
    (deps : Path → List Path × List (ErrKind × String))
    (relf : Path → Option NodeId) (opts : Opts) (args : List Path)
    (worklist : List Path) (fuel : Nat) : RunResult :=
  match args.find? (fun a => !(fsExists a)) with
  | some a => .configError (.fileNotExists a)
  | none =>
    let inroots := findRoots args
    if opts.internal ∧ inroots = [] then .configError .noPackageRoots
    else
      runLoop
        { deps := deps, relfile := relf, internal := opts.internal,
          follow := opts.follow, inroots := inroots }
        fuel initState worklist

/-- The same environment with the error component of the extractor output
discarded; used to state that extraction errors are non-fatal and feed
nothing but the error report. -/
def stripErrs (env : Env) : Env :=
  { env with deps := fun p => ((env.deps p).1, []) }

/-- Everything of a builder state except the error report. -/
def core (st : BState) :
    List (NodeId × List Target) × List Path × List Path × List Path :=
  (st.allfiles, st.processed, st.newfiles, st.extracted)

/-- The names reported for one error kind (gendeps.py:164):
`frozenset(name for err, name in allerrors if err is errtype)`, then
sorted (line 168). -/
def reportNames (k : ErrKind) (errs : List (ErrKind × String)) : List String :=
  sortNames ((errs.filter (fun e => decide (e.1 = k))).map (fun e => e.2)).dedup

/-- The report tiers of gendeps.py:158-161: the `ERROR_IMPORT` tier always,
the `ERROR_SYMBOL` tier only when `opts.verbose >= 2`. -/
def summaryTiers (verbose : Nat) : List (String × ErrKind) :=
  [("Modules that could not be imported:", ErrKind.errorImport)] ++
    (if 2 ≤ verbose then
      [("Symbols that could not be imported as modules:", ErrKind.errorSymbol)]
    else [])

/-- The end-of-run error report, gendeps.py:157-169: for each tier, emit its
header and the sorted, deduplicated names — omitting the tier entirely when
it has no names (the `if names:` guard on line 165). -/
def summaryReport (verbose : Nat) (errs : List (ErrKind × String)) :
    List (String × List String) :=
  (summaryTiers verbose).filterMap (fun r =>
    let names := reportNames r.2 errs
    if names = [] then none else some (r.1, names))

/-- Boolean prefix test on paths. -/
def isPref : Path → Path → Bool
  | [], _ => true
  | _ :: _, [] => false
  | a :: as, b :: bs => a = b && isPref as bs

/-- The candidate root with the longest (most specific) prefix match. -/
def pickLongest : List Path → Option Path
  | [] => none
  | r :: rest =>
    match pickLongest rest with
    | none => some r
    | some b => if b.length < r.length then some r else some b

/-- Modelled from the spec: the Node Identity Resolver `relfile` of
`roots.py`, a file of this repository that is not under `src/`.  Following
§4.3 of the specification: a path with an ignored component anywhere along
the way never resolves; among the supplied roots that are directory
prefixes of the path, the longest match wins and the identity is that root
paired with the remaining relative path; if no root matches the result is
`none` ("null"), which callers must treat as "drop this endpoint". -/
def relfileSpec (roots : List Path) (ignores : List String) (fn : Path) :
    Option NodeId :=
  if fn.any (fun c => decide (c ∈ ignores)) then none
  else
    match pickLongest (roots.filter (fun r => isPref r fn)) with
    | none => none
    | some r => some (r, fn.drop r.length)

/-- The key invariant of the edge mapping: every key's set holds the
`(None, None)` sentinel. -/
def sentinelInv (m : List (NodeId × List Target)) : Prop :=
  ∀ kv ∈ m, Target.sentinel ∈ kv.2

/-- The number of universe entries not yet processed: the decreasing
measure of follow mode. -/
def remaining (U : List Path) (st : BState) : Nat :=
  (U.filter (fun u => decide (u ∉ st.processed))).length

/-- Correspondence of run outcomes up to the error report: equal faults,
equal exhaustion, or finished states agreeing on everything but
`allerrors`. -/
def resRel (r₁ r₂ : RunResult) : Prop :=
  match r₁, r₂ with
  | .finished s₁, .finished s₂ => core s₁ = core s₂
  | .crashed e₁, .crashed e₂ => e₁ = e₂
  | .fuelOut, .fuelOut => True
  | .configError e₁, .configError e₂ => e₁ = e₂
  | _, _ => False

/-! ### Concrete runs used by the witnesses and counterexamples -/

/-- The package root of the concrete runs. -/
def rootA : Path := ["proj"]

/-- A module file under the root. -/
def pa : Path := ["proj", "a.py"]

/-- A second module file under the root. -/
def pb : Path := ["proj", "b.py"]

/-- A package directory under the root. -/
def ppkg : Path := ["proj", "pkg"]

/-- A dependency target outside the root (a system module). -/
def pext : Path := ["usr", "os.py"]

/-- A concrete import extractor: `a.py` imports `b.py` and the external
`os.py` (with one unresolved-import error record), `b.py` imports `a.py`
back. -/
def depsW : Path → List Path × List (ErrKind × String) := fun p =>
  if p = pa then ([pb, pext], [(ErrKind.errorImport, "zipzap")])
  else if p = pb then ([pa], [])
  else ([], [])

/-- A follow-mode, non-internal environment over `depsW`, resolving
identities against the single root `/proj`. -/
def envW : Env :=
  { deps := depsW, relfile := relfileSpec [rootA] [".svn"],
    internal := false, follow := true, inroots := [rootA] }

/-- The internal-only environment whose resolver also knows the root
`/usr`, so the external target resolves to an identity whose root is
outside `inroots`. -/
def envC1 : Env :=
  { deps := depsW, relfile := relfileSpec [rootA, ["usr"]] [".svn"],
    internal := true, follow := true, inroots := [rootA] }

/-- A two-file import cycle in follow mode. -/
def envC6 : Env :=
  { deps := fun p =>
      if p = pa then ([pb], []) else if p = pb then ([pa], []) else ([], []),
    relfile := relfileSpec [rootA] [".svn"],
    internal := false, follow := true, inroots := [rootA] }

/-- The final state of `runLoop envW 5 initState [pa]`. -/
def stW : BState :=
  { allfiles := [((rootA, ["a.py"]),
      [Target.sentinel, Target.node (rootA, ["b.py"]), Target.pyNone]),
     ((rootA, ["b.py"]), [Target.sentinel, Target.node (rootA, ["a.py"])])],
    allerrors := [(ErrKind.errorImport, "zipzap")],
    processed := [pa, pb, pext],
    newfiles := [],
    extracted := [pa, pb, pext] }

/-- The state after the first round of the cyclic run. -/
def stC6 : BState :=
  { allfiles := [((rootA, ["a.py"]),
      [Target.sentinel, Target.node (rootA, ["b.py"])]),
     ((rootA, ["b.py"]), [Target.sentinel, Target.node (rootA, ["a.py"])])],
    allerrors := [],
    processed := [pa, pb],
    newfiles := [pb, pa],
    extracted := [pa, pb] }

/-- The final state of the internal-only run `runLoop envC1 5 initState [pa]`. -/
def stC1 : BState :=
  { allfiles := [((rootA, ["a.py"]),
      [Target.sentinel, Target.node (rootA, ["b.py"])]),
     ((rootA, ["b.py"]), [Target.sentinel, Target.node (rootA, ["a.py"])])],
    allerrors := [(ErrKind.errorImport, "zipzap")],
    processed := [pa, pb],
    newfiles := [],
    extracted := [pa, pb] }

/-! ### Basic lemmas about the set and map embeddings -/

theorem mem_insertPath {s : List Path} {p x : Path} :
    x ∈ insertPath s p ↔ x ∈ s ∨ x = p := by
  unfold insertPath
  split
  · rename_i h
    constructor
    · exact Or.inl
    · rintro (hx | rfl)
      · exact hx
      · exact h
  · simp [List.mem_append]

theorem insertPath_subset {s : List Path} {p : Path} : s ⊆ insertPath s p := by
  intro x hx; exact mem_insertPath.mpr (Or.inl hx)

theorem insertPath_nodup {s : List Path} {p : Path} (h : s.Nodup) :
    (insertPath s p).Nodup := by
  unfold insertPath
  split
  · exact h
  · rename_i hp
    simpa [List.nodup_append, h] using hp

theorem mem_lookupTargets_addTarget {m : List (NodeId × List Target)}
    {k k' : NodeId} {t x : Target} :
    x ∈ lookupTargets (addTarget m k t) k' ↔
      x ∈ lookupTargets m k' ∨ (k' = k ∧ x = t) := by
  induction m with
  | nil =>
    by_cases hk : k' = k <;> simp [addTarget, lookupTargets, hk]
  | cons kv rest ih =>
    obtain ⟨k₀, s⟩ := kv
    simp only [addTarget]
    by_cases hk : k = k₀
    · rw [if_pos hk]
      simp only [lookupTargets]
      by_cases hk' : k' = k₀
      · rw [if_pos hk', if_pos hk']
        have hkk : k' = k := hk'.trans hk.symm
        by_cases ht : t ∈ s
        · rw [if_pos ht]
          constructor
          · exact Or.inl
          · rintro (hx | ⟨_, rfl⟩)
            · exact hx
            · exact ht
        · rw [if_neg ht]
          simp only [List.mem_append, List.mem_singleton, hkk]
          tauto
      · rw [if_neg hk', if_neg hk']
        constructor
        · exact Or.inl
        · rintro (hx | ⟨he, _⟩)
          · exact hx
          · exact absurd (he.trans hk) hk'
    · rw [if_neg hk]
      simp only [lookupTargets]
      by_cases hk' : k' = k₀
      · rw [if_pos hk', if_pos hk']
        constructor
        · exact Or.inl
        · rintro (hx | ⟨he, _⟩)
          · exact hx
          · exact absurd (he.symm.trans hk') hk
      · rw [if_neg hk', if_neg hk']
        exact ih

theorem lookupTargets_mem {m : List (NodeId × List Target)} {k : NodeId}
    (h : lookupTargets m k ≠ []) : (k, lookupTargets m k) ∈ m := by
  induction m with
  | nil => simp [lookupTargets] at h
  | cons kv rest ih =>
    obtain ⟨k₀, s⟩ := kv
    by_cases hk : k = k₀
    · rw [hk]
      simp only [lookupTargets, if_pos rfl]
      exact List.mem_cons_self _ _
    · simp only [lookupTargets, if_neg hk] at h ⊢
      exact List.mem_cons_of_mem _ (ih h)

theorem sentinelInv_nil : sentinelInv [] := by
  intro kv h; cases h

theorem sentinelInv_addTarget {m : List (NodeId × List Target)} {k : NodeId}
    {t : Target} (hm : sentinelInv m)
    (h : t = Target.sentinel ∨ Target.sentinel ∈ lookupTargets m k) :
    sentinelInv (addTarget m k t) := by
  induction m with
  | nil =>
    rcases h with rfl | h
    · intro kv hkv
      simp [addTarget] at hkv
      simp [hkv]
    · simp [lookupTargets] at h
  | cons kv₀ rest ih =>
    obtain ⟨k₀, s⟩ := kv₀
    by_cases hk : k = k₀
    · subst hk
      simp [lookupTargets] at h
      intro kv hkv
      simp [addTarget] at hkv
      rcases hkv with rfl | hkv
      · have hs : Target.sentinel ∈ s := by
          rcases h with rfl | h
          · have := hm (k, s) (by simp)
            simpa using this
          · exact h
        by_cases ht : t ∈ s <;> simp [ht, hs]
      · exact hm kv (by simp [hkv])
    · intro kv hkv
      simp [addTarget, hk] at hkv
      rcases hkv with rfl | hkv
      · exact hm (k₀, s) (by simp)
      · refine ih (fun kv' hkv' => hm kv' (by simp [hkv'])) ?_ kv hkv
        rcases h with rfl | h
        · exact Or.inl rfl
        · simp [lookupTargets, hk] at h
          exact Or.inr h

/-! ### The lexicographic path order used to model Python `sorted` -/

theorem lexLt_irrefl {α : Type} (lt : α → α → Bool)
    (h : ∀ a, lt a a = false) : ∀ xs, lexLt lt xs xs = false := by
  intro xs
  induction xs with
  | nil => rfl
  | cons a as ih => simp [lexLt, h, ih]

theorem lexLt_conn {α : Type} (lt : α → α → Bool)
    (hconn : ∀ a b, lt a b = false → lt b a = false → a = b) :
    ∀ xs ys, lexLt lt xs ys = false → lexLt lt ys xs = false → xs = ys := by
  intro xs
  induction xs with
  | nil =>
    intro ys h₁ _
    cases ys with
    | nil => rfl
    | cons b bs => simp [lexLt] at h₁
  | cons a as ih =>
    intro ys h₁ h₂
    cases ys with
    | nil => simp [lexLt] at h₂
    | cons b bs =>
      simp only [lexLt] at h₁ h₂
      by_cases hab : lt a b = true
      · simp [hab] at h₁
      · by_cases hba : lt b a = true
        · simp [hab, hba] at h₂
        · have hab' : lt a b = false := by simpa using hab
          have hba' : lt b a = false := by simpa using hba
          have he : a = b := hconn a b hab' hba'
          subst he
          simp [hab'] at h₁ h₂
          rw [ih bs h₁ h₂]

theorem lexLt_trans {α : Type} (lt : α → α → Bool)
    (htr : ∀ a b c, lt a b = true → lt b c = true → lt a c = true)
    (hconn : ∀ a b, lt a b = false → lt b a = false → a = b) :
    ∀ xs ys zs, lexLt lt xs ys = true → lexLt lt ys zs = true →
      lexLt lt xs zs = true := by
  intro xs
  induction xs with
  | nil =>
    intro ys zs h₁ h₂
    cases ys with
    | nil => simp [lexLt] at h₁
    | cons b bs =>
      cases zs with
      | nil => simp [lexLt] at h₂
      | cons c cs => simp [lexLt]
  | cons a as ih =>
    intro ys zs h₁ h₂
    cases ys with
    | nil => simp [lexLt] at h₁
    | cons b bs =>
      cases zs with
      | nil => simp [lexLt] at h₂
      | cons c cs =>
        simp only [lexLt] at h₁ h₂ ⊢
        by_cases hab : lt a b = true
        · by_cases hbc : lt b c = true
          · simp [htr a b c hab hbc]
          · by_cases hcb : lt c b = true
            · simp [hbc, hcb] at h₂
            · have he : b = c :=
                hconn b c (by simpa using hbc) (by simpa using hcb)
              subst he
              simp [hab]
        · by_cases hba : lt b a = true
          · simp [hab, hba] at h₁
          · have he : a = b :=
              hconn a b (by simpa using hab) (by simpa using hba)
            subst he
            simp [hab] at h₁
            by_cases hac : lt a c = true
            · simp [hac]
            · by_cases hca : lt c a = true
              · simp [hac, hca] at h₂
              · have he₂ : a = c :=
                  hconn a c (by simpa using hac) (by simpa using hca)
                subst he₂
                simp [hac] at h₂ ⊢
                exact ih bs cs h₁ h₂

theorem chLt_irrefl : ∀ c, chLt c c = false := by
  intro c; simp [chLt]

theorem chLt_trans : ∀ a b c, chLt a b = true → chLt b c = true →
    chLt a c = true := by
  intro a b c h₁ h₂
  simp [chLt] at h₁ h₂ ⊢
  omega

theorem chLt_conn : ∀ a b : Char, chLt a b = false → chLt b a = false →
    a = b := by
  intro a b h₁ h₂
  simp [chLt] at h₁ h₂
  have hn : a.toNat = b.toNat := by omega
  have := congrArg Char.ofNat hn
  simpa [Char.ofNat_toNat] using this

theorem strLt_irrefl : ∀ s, strLt s s = false := by
  intro s; exact lexLt_irrefl chLt chLt_irrefl s.data

theorem strLt_trans : ∀ a b c, strLt a b = true → strLt b c = true →
    strLt a c = true := by
  intro a b c h₁ h₂
  exact lexLt_trans chLt chLt_trans chLt_conn a.data b.data c.data h₁ h₂

theorem strLt_conn : ∀ a b : String, strLt a b = false → strLt b a = false →
    a = b := by
  intro a b h₁ h₂
  have hd : a.data = b.data := lexLt_conn chLt chLt_conn a.data b.data h₁ h₂
  cases a; cases b
  exact congrArg String.mk (by simpa using hd)

theorem pathLt_irrefl : ∀ p, pathLt p p = false := by
  intro p; exact lexLt_irrefl strLt strLt_irrefl p

theorem pathLt_trans : ∀ p q r, pathLt p q = true → pathLt q r = true →
    pathLt p r = true :=
  lexLt_trans strLt strLt_trans strLt_conn

theorem pathLt_conn : ∀ p q : Path, pathLt p q = false → pathLt q p = false →
    p = q :=
  lexLt_conn strLt strLt_conn

theorem pathLeRel_total : ∀ p q : Path, pathLeRel p q ∨ pathLeRel q p := by
  intro p q
  unfold pathLeRel
  by_cases h₁ : pathLt q p = true
  · by_cases h₂ : pathLt p q = true
    · have := pathLt_trans p q p h₂ h₁
      rw [pathLt_irrefl] at this
      cases this
    · exact Or.inr (by simpa using h₂)
  · exact Or.inl (by simpa using h₁)

theorem pathLeRel_trans : ∀ a b c : Path,
    pathLeRel a b → pathLeRel b c → pathLeRel a c := by
  intro a b c h₁ h₂
  unfold pathLeRel at h₁ h₂ ⊢
  by_cases hca : pathLt c a = true
  · by_cases hbc : pathLt b c = true
    · have hba := pathLt_trans b c a hbc hca
      rw [h₁] at hba
      cases hba
    · have he : b = c := pathLt_conn b c (by simpa using hbc) h₂
      subst he
      rw [h₁] at hca
      cases hca
  · simpa using hca

theorem strLeRel_total : ∀ p q : String, strLeRel p q ∨ strLeRel q p := by
  intro p q
  unfold strLeRel
  by_cases h₁ : strLt q p = true
  · by_cases h₂ : strLt p q = true
    · have := strLt_trans p q p h₂ h₁
      rw [strLt_irrefl] at this
      cases this
    · exact Or.inr (by simpa using h₂)
  · exact Or.inl (by simpa using h₁)

theorem strLeRel_trans : ∀ a b c : String,
    strLeRel a b → strLeRel b c → strLeRel a c := by
  intro a b c h₁ h₂
  unfold strLeRel at h₁ h₂ ⊢
  by_cases hca : strLt c a = true
  · by_cases hbc : strLt b c = true
    · have hba := strLt_trans b c a hbc hca
      rw [h₁] at hba
      cases hba
    · have he : b = c := strLt_conn b c (by simpa using hbc) h₂
      subst he
      rw [h₁] at hca
      cases hca
  · simpa using hca

theorem sortPaths_sorted (l : List Path) :
    List.Sorted pathLeRel (sortPaths l) :=
  @List.sorted_insertionSort _ pathLeRel _ ⟨pathLeRel_total⟩
    ⟨pathLeRel_trans⟩ l

theorem sortPaths_perm (l : List Path) : (sortPaths l).Perm l :=
  List.perm_insertionSort pathLeRel l

theorem mem_sortPaths {l : List Path} {p : Path} :
    p ∈ sortPaths l ↔ p ∈ l :=
  (sortPaths_perm l).mem_iff

theorem sortPaths_nodup {l : List Path} (h : l.Nodup) :
    (sortPaths l).Nodup :=
  ((sortPaths_perm l).symm.nodup h)

theorem sortNames_sorted (l : List String) :
    List.Sorted strLeRel (sortNames l) :=
  @List.sorted_insertionSort _ strLeRel _ ⟨strLeRel_total⟩
    ⟨strLeRel_trans⟩ l

theorem sortNames_perm (l : List String) : (sortNames l).Perm l :=
  List.perm_insertionSort strLeRel l

/-! ### Structure of `processDep` (one dependency of one file) -/

theorem processDep_cases (env : Env) (f : NodeId) (st : BState) (d : Path) :
    processDep env f st d = .error .typeError ∨
    processDep env f st d = .ok st ∨
    ∃ t : Target, processDep env f st d =
      .ok { st with allfiles := addTarget st.allfiles f t,
                    newfiles := insertPath st.newfiles d } := by
  by_cases hI : env.internal = true
  · cases hr : resolveId env d with
    | none => left; simp [processDep, hI, hr]
    | some t =>
      by_cases hm : t.1 ∈ env.inroots
      · right; right
        exact ⟨Target.node t, by simp [processDep, hI, hr, hm]⟩
      · right; left
        simp [processDep, hI, hr, hm]
  · right; right
    refine ⟨match resolveId env d with
            | none => Target.pyNone
            | some t => Target.node t, ?_⟩
    simp [processDep, hI]

theorem processDep_skip {env : Env} {f : NodeId} {st : BState} {d : Path}
    {t : NodeId} (hI : env.internal = true) (hr : resolveId env d = some t)
    (hm : t.1 ∉ env.inroots) : processDep env f st d = .ok st := by
  simp [processDep, hI, hr, hm]

theorem processDep_base {env : Env} {f : NodeId} {st st' : BState} {d : Path}
    (h : processDep env f st d = .ok st') :
    st'.allerrors = st.allerrors ∧ st'.processed = st.processed ∧
      st'.extracted = st.extracted := by
  rcases processDep_cases env f st d with hc | hc | ⟨t, hc⟩ <;> rw [hc] at h <;>
    cases h <;> exact ⟨rfl, rfl, rfl⟩

theorem processDep_newfiles {env : Env} {f : NodeId} {st st' : BState}
    {d : Path} (h : processDep env f st d = .ok st') :
    st.newfiles ⊆ st'.newfiles ∧
      ∀ x ∈ st'.newfiles, x ∈ st.newfiles ∨ x = d := by
  rcases processDep_cases env f st d with hc | hc | ⟨t, hc⟩ <;> rw [hc] at h <;>
    cases h
  · exact ⟨fun x hx => hx, fun x hx => Or.inl hx⟩
  · exact ⟨fun x hx => insertPath_subset hx, fun x hx => mem_insertPath.mp hx⟩

theorem processDep_newfiles_nodup {env : Env} {f : NodeId} {st st' : BState}
    {d : Path} (hn : st.newfiles.Nodup) (h : processDep env f st d = .ok st') :
    st'.newfiles.Nodup := by
  rcases processDep_cases env f st d with hc | hc | ⟨t, hc⟩ <;> rw [hc] at h <;>
    cases h
  · exact hn
  · exact insertPath_nodup hn

theorem processDep_allfiles_mono {env : Env} {f : NodeId} {st st' : BState}
    {d : Path} (h : processDep env f st d = .ok st') :
    ∀ k x, x ∈ lookupTargets st.allfiles k → x ∈ lookupTargets st'.allfiles k := by
  rcases processDep_cases env f st d with hc | hc | ⟨t, hc⟩ <;> rw [hc] at h <;>
    cases h
  · exact fun k x hx => hx
  · exact fun k x hx => mem_lookupTargets_addTarget.mpr (Or.inl hx)

theorem processDep_sentinelInv {env : Env} {f : NodeId} {st st' : BState}
    {d : Path} (hs : sentinelInv st.allfiles)
    (hf : Target.sentinel ∈ lookupTargets st.allfiles f)
    (h : processDep env f st d = .ok st') :
    sentinelInv st'.allfiles ∧
      Target.sentinel ∈ lookupTargets st'.allfiles f := by
  rcases processDep_cases env f st d with hc | hc | ⟨t, hc⟩ <;> rw [hc] at h <;>
    cases h
  · exact ⟨hs, hf⟩
  · exact ⟨sentinelInv_addTarget hs (Or.inr hf),
      mem_lookupTargets_addTarget.mpr (Or.inl hf)⟩

theorem processDep_new_target {env : Env} {f : NodeId} {st st' : BState}
    {d : Path} (hI : env.internal = true)
    (h : processDep env f st d = .ok st') :
    ∀ k x, x ∈ lookupTargets st'.allfiles k →
      x ∈ lookupTargets st.allfiles k ∨
        ∃ t, x = Target.node t ∧ t.1 ∈ env.inroots := by
  intro k x hx
  cases hr : resolveId env d with
  | none => simp [processDep, hI, hr] at h
  | some t =>
    by_cases hm : t.1 ∈ env.inroots
    · have hc : processDep env f st d =
          .ok { st with allfiles := addTarget st.allfiles f (Target.node t),
                        newfiles := insertPath st.newfiles d } := by
        simp [processDep, hI, hr, hm]
      rw [hc] at h
      cases h
      rcases mem_lookupTargets_addTarget.mp hx with hx' | ⟨_, rfl⟩
      · exact Or.inl hx'
      · exact Or.inr ⟨t, rfl, hm⟩
    · rw [processDep_skip hI hr hm] at h
      cases h
      exact Or.inl hx

/-! ### Structure of `runDeps` (all dependencies of one file) -/

theorem runDeps_base {env : Env} {f : NodeId} {st st' : BState}
    {ds : List Path} (h : runDeps env f st ds = .ok st') :
    st'.allerrors = st.allerrors ∧ st'.processed = st.processed ∧
      st'.extracted = st.extracted := by
  induction ds generalizing st with
  | nil =>
    simp only [runDeps] at h
    cases h
    exact ⟨rfl, rfl, rfl⟩
  | cons d rest ih =>
    simp only [runDeps] at h
    cases hp : processDep env f st d with
    | error e => rw [hp] at h; cases h
    | ok st₁ =>
      rw [hp] at h
      have h1 := processDep_base hp
      have h2 := ih h
      exact ⟨h2.1.trans h1.1, h2.2.1.trans h1.2.1, h2.2.2.trans h1.2.2⟩

theorem runDeps_newfiles {env : Env} {f : NodeId} {st st' : BState}
    {ds : List Path} (h : runDeps env f st ds = .ok st') :
    st.newfiles ⊆ st'.newfiles ∧
      ∀ x ∈ st'.newfiles, x ∈ st.newfiles ∨ x ∈ ds := by
  induction ds generalizing st with
  | nil =>
    simp only [runDeps] at h
    cases h
    exact ⟨fun x hx => hx, fun x hx => Or.inl hx⟩
  | cons d rest ih =>
    simp only [runDeps] at h
    cases hp : processDep env f st d with
    | error e => rw [hp] at h; cases h
    | ok st₁ =>
      rw [hp] at h
      have h1 := processDep_newfiles hp
      have h2 := ih h
      constructor
      · exact fun x hx => h2.1 (h1.1 hx)
      · intro x hx
        rcases h2.2 x hx with hx' | hx'
        · rcases h1.2 x hx' with hx'' | rfl
          · exact Or.inl hx''
          · exact Or.inr (by simp)
        · exact Or.inr (by simp [hx'])

theorem runDeps_newfiles_nodup {env : Env} {f : NodeId} {st st' : BState}
    {ds : List Path} (hn : st.newfiles.Nodup)
    (h : runDeps env f st ds = .ok st') : st'.newfiles.Nodup := by
  induction ds generalizing st with
  | nil =>
    simp only [runDeps] at h
    cases h
    exact hn
  | cons d rest ih =>
    simp only [runDeps] at h
    cases hp : processDep env f st d with
    | error e => rw [hp] at h; cases h
    | ok st₁ =>
      rw [hp] at h
      exact ih (processDep_newfiles_nodup hn hp) h

theorem runDeps_allfiles_mono {env : Env} {f : NodeId} {st st' : BState}
    {ds : List Path} (h : runDeps env f st ds = .ok st') :
    ∀ k x, x ∈ lookupTargets st.allfiles k → x ∈ lookupTargets st'.allfiles k := by
  induction ds generalizing st with
  | nil =>
    simp only [runDeps] at h
    cases h
    exact fun k x hx => hx
  | cons d rest ih =>
    simp only [runDeps] at h
    cases hp : processDep env f st d with
    | error e => rw [hp] at h; cases h
    | ok st₁ =>
      rw [hp] at h
      exact fun k x hx => ih h k x (processDep_allfiles_mono hp k x hx)

theorem runDeps_sentinelInv {env : Env} {f : NodeId} {st st' : BState}
    {ds : List Path} (hs : sentinelInv st.allfiles)
    (hf : Target.sentinel ∈ lookupTargets st.allfiles f)
    (h : runDeps env f st ds = .ok st') :
    sentinelInv st'.allfiles ∧
      Target.sentinel ∈ lookupTargets st'.allfiles f := by
  induction ds generalizing st with
  | nil =>
    simp only [runDeps] at h
    cases h
    exact ⟨hs, hf⟩
  | cons d rest ih =>
    simp only [runDeps] at h
    cases hp : processDep env f st d with
    | error e => rw [hp] at h; cases h
    | ok st₁ =>
      rw [hp] at h
      have h1 := processDep_sentinelInv hs hf hp
      exact ih h1.1 h1.2 h

theorem runDeps_new_target {env : Env} {f : NodeId} {st st' : BState}
    {ds : List Path} (hI : env.internal = true)
    (h : runDeps env f st ds = .ok st') :
    ∀ k x, x ∈ lookupTargets st'.allfiles k →
      x ∈ lookupTargets st.allfiles k ∨
        ∃ t, x = Target.node t ∧ t.1 ∈ env.inroots := by
  induction ds generalizing st with
  | nil =>
    simp only [runDeps] at h
    cases h
    exact fun k x hx => Or.inl hx
  | cons d rest ih =>
    simp only [runDeps] at h
    cases hp : processDep env f st d with
    | error e => rw [hp] at h; cases h
    | ok st₁ =>
      rw [hp] at h
      intro k x hx
      rcases ih h k x hx with hx' | hx'
      · exact processDep_new_target hI hp k x hx'
      · exact Or.inr hx'

/-! ### Structure of `processFile` (one worklist entry) -/

theorem processFile_skip {env : Env} {st : BState} {fn : Path}
    (h : fn ∈ st.processed) : processFile env st fn = .ok st := by
  simp [processFile, h]

theorem processFile_shape {env : Env} {st st' : BState} {fn : Path}
    (h : processFile env st fn = .ok st') :
    (fn ∈ st.processed ∧ st' = st) ∨
    (fn ∉ st.processed ∧
      st'.processed = st.processed ++ [fn] ∧
      st'.extracted = st.extracted ++ [fn] ∧
      st'.allerrors = st.allerrors ++ (env.deps fn).2 ∧
      st.newfiles ⊆ st'.newfiles ∧
      (∀ x ∈ st'.newfiles, x ∈ st.newfiles ∨ x ∈ (env.deps fn).1) ∧
      (st.newfiles.Nodup → st'.newfiles.Nodup) ∧
      (∀ k x, x ∈ lookupTargets st.allfiles k →
        x ∈ lookupTargets st'.allfiles k)) := by
  by_cases hp : fn ∈ st.processed
  · rw [processFile_skip hp] at h
    cases h
    exact Or.inl ⟨hp, rfl⟩
  · right
    simp only [processFile, if_neg hp] at h
    cases hr : resolveId env fn with
    | none =>
      rw [hr] at h
      cases h
      refine ⟨hp, rfl, rfl, rfl, fun x hx => hx, fun x hx => Or.inl hx,
        fun hn => hn, fun k x hx => hx⟩
    | some f =>
      simp only [hr] at h
      by_cases hflt : env.internal = true ∧ f.1 ∉ env.inroots
      · rw [if_pos hflt] at h
        cases h
        refine ⟨hp, rfl, rfl, rfl, fun x hx => hx, fun x hx => Or.inl hx,
          fun hn => hn, fun k x hx => hx⟩
      · rw [if_neg hflt] at h
        have hb := runDeps_base h
        have hnf := runDeps_newfiles h
        have hmono := runDeps_allfiles_mono h
        refine ⟨hp, by simpa using hb.2.1, by simpa using hb.2.2,
          by simpa using hb.1, fun x hx => hnf.1 hx,
          fun x hx => hnf.2 x hx,
          fun hn => runDeps_newfiles_nodup (by simpa using hn) h,
          fun k x hx => hmono k x
            (mem_lookupTargets_addTarget.mpr (Or.inl hx))⟩

theorem processFile_sentinelInv {env : Env} {st st' : BState} {fn : Path}
    (hs : sentinelInv st.allfiles) (h : processFile env st fn = .ok st') :
    sentinelInv st'.allfiles := by
  by_cases hp : fn ∈ st.processed
  · rw [processFile_skip hp] at h
    cases h
    exact hs
  · simp only [processFile, if_neg hp] at h
    cases hr : resolveId env fn with
    | none =>
      rw [hr] at h
      cases h
      exact hs
    | some f =>
      simp only [hr] at h
      by_cases hflt : env.internal = true ∧ f.1 ∉ env.inroots
      · rw [if_pos hflt] at h
        cases h
        exact hs
      · rw [if_neg hflt] at h
        have hs' : sentinelInv
            (addTarget st.allfiles f Target.sentinel) :=
          sentinelInv_addTarget hs (Or.inl rfl)
        have hf : Target.sentinel ∈
            lookupTargets (addTarget st.allfiles f Target.sentinel) f :=
          mem_lookupTargets_addTarget.mpr (Or.inr ⟨rfl, rfl⟩)
        exact (runDeps_sentinelInv hs' hf h).1

theorem processFile_sentinel_added {env : Env} {st st' : BState} {fn : Path}
    {f : NodeId} (hp : fn ∉ st.processed) (hr : resolveId env fn = some f)
    (hflt : ¬(env.internal = true ∧ f.1 ∉ env.inroots))
    (h : processFile env st fn = .ok st') :
    Target.sentinel ∈ lookupTargets st'.allfiles f := by
  simp only [processFile, if_neg hp] at h
  simp only [hr] at h
  rw [if_neg hflt] at h
  exact runDeps_allfiles_mono h f Target.sentinel
    (mem_lookupTargets_addTarget.mpr (Or.inr ⟨rfl, rfl⟩))

/-! ### Structure of `runWorklist` and `runRound` (one round) -/

theorem runWorklist_processed {env : Env} {st st' : BState} {wl : List Path}
    (h : runWorklist env st wl = .ok st') :
    st.processed ⊆ st'.processed ∧
      (∀ x ∈ st'.processed, x ∈ st.processed ∨ x ∈ wl) ∧
      (∀ fn ∈ wl, fn ∈ st'.processed) := by
  induction wl generalizing st with
  | nil =>
    simp only [runWorklist] at h
    cases h
    exact ⟨fun x hx => hx, fun x hx => Or.inl hx, fun fn hfn => absurd hfn
      (List.not_mem_nil fn)⟩
  | cons fn rest ih =>
    simp only [runWorklist] at h
    cases hp : processFile env st fn with
    | error e => rw [hp] at h; cases h
    | ok st₁ =>
      rw [hp] at h
      have h2 := ih h
      have hsub : st.processed ⊆ st₁.processed ∧ fn ∈ st₁.processed ∧
          ∀ x ∈ st₁.processed, x ∈ st.processed ∨ x = fn := by
        rcases processFile_shape hp with ⟨hin, rfl⟩ | ⟨_, hpr, _⟩
        · exact ⟨fun x hx => hx, hin, fun x hx => Or.inl hx⟩
        · rw [hpr]
          refine ⟨fun x hx => by simp [hx], by simp, fun x hx => ?_⟩
          simpa using hx
      refine ⟨fun x hx => h2.1 (hsub.1 hx), fun x hx => ?_, fun g hg => ?_⟩
      · rcases h2.2.1 x hx with hx' | hx'
        · rcases hsub.2.2 x hx' with hx'' | rfl
          · exact Or.inl hx''
          · exact Or.inr (by simp)
        · exact Or.inr (by simp [hx'])
      · rcases List.mem_cons.mp hg with rfl | hg'
        · exact h2.1 hsub.2.1
        · exact h2.2.2 g hg'

theorem runWorklist_extracted_sync {env : Env} {st st' : BState}
    {wl : List Path} (hx : st.extracted = st.processed)
    (hn : st.processed.Nodup) (h : runWorklist env st wl = .ok st') :
    st'.extracted = st'.processed ∧ st'.processed.Nodup := by
  induction wl generalizing st with
  | nil =>
    simp only [runWorklist] at h
    cases h
    exact ⟨hx, hn⟩
  | cons fn rest ih =>
    simp only [runWorklist] at h
    cases hp : processFile env st fn with
    | error e => rw [hp] at h; cases h
    | ok st₁ =>
      rw [hp] at h
      rcases processFile_shape hp with ⟨_, rfl⟩ | ⟨hnin, hpr, hex, _⟩
      · exact ih hx hn h
      · refine ih ?_ ?_ h
        · rw [hex, hpr, hx]
        · rw [hpr]
          simpa [List.nodup_append, hn] using hnin

theorem runWorklist_newfiles_sub {env : Env} {st st' : BState}
    {wl : List Path} (h : runWorklist env st wl = .ok st') :
    st.newfiles ⊆ st'.newfiles := by
  induction wl generalizing st with
  | nil =>
    simp only [runWorklist] at h
    cases h
    exact fun x hx => hx
  | cons fn rest ih =>
    simp only [runWorklist] at h
    cases hp : processFile env st fn with
    | error e => rw [hp] at h; cases h
    | ok st₁ =>
      rw [hp] at h
      rcases processFile_shape hp with ⟨_, rfl⟩ | ⟨_, _, _, _, hsub, _⟩
      · exact ih h
      · exact fun x hx => ih h (hsub hx)

theorem runWorklist_newfiles_from {env : Env} {st st' : BState}
    {wl U : List Path} (hU : ∀ fn, ∀ x ∈ (env.deps fn).1, x ∈ U)
    (h : runWorklist env st wl = .ok st') :
    ∀ x ∈ st'.newfiles, x ∈ st.newfiles ∨ x ∈ U := by
  induction wl generalizing st with
  | nil =>
    simp only [runWorklist] at h
    cases h
    exact fun x hx => Or.inl hx
  | cons fn rest ih =>
    simp only [runWorklist] at h
    cases hp : processFile env st fn with
    | error e => rw [hp] at h; cases h
    | ok st₁ =>
      rw [hp] at h
      intro x hx
      rcases processFile_shape hp with ⟨_, rfl⟩ | ⟨_, _, _, _, _, horig, _⟩
      · exact ih h x hx
      · rcases ih h x hx with hx' | hx'
        · rcases horig x hx' with hx'' | hx''
          · exact Or.inl hx''
          · exact Or.inr (hU fn x hx'')
        · exact Or.inr hx'

theorem runWorklist_newfiles_nodup {env : Env} {st st' : BState}
    {wl : List Path} (hn : st.newfiles.Nodup)
    (h : runWorklist env st wl = .ok st') : st'.newfiles.Nodup := by
  induction wl generalizing st with
  | nil =>
    simp only [runWorklist] at h
    cases h
    exact hn
  | cons fn rest ih =>
    simp only [runWorklist] at h
    cases hp : processFile env st fn with
    | error e => rw [hp] at h; cases h
    | ok st₁ =>
      rw [hp] at h
      rcases processFile_shape hp with ⟨_, rfl⟩ | ⟨_, _, _, _, _, _, hnd, _⟩
      · exact ih hn h
      · exact ih (hnd hn) h

theorem runWorklist_allfiles_mono {env : Env} {st st' : BState}
    {wl : List Path} (h : runWorklist env st wl = .ok st') :
    ∀ k x, x ∈ lookupTargets st.allfiles k → x ∈ lookupTargets st'.allfiles k := by
  induction wl generalizing st with
  | nil =>
    simp only [runWorklist] at h
    cases h
    exact fun k x hx => hx
  | cons fn rest ih =>
    simp only [runWorklist] at h
    cases hp : processFile env st fn with
    | error e => rw [hp] at h; cases h
    | ok st₁ =>
      rw [hp] at h
      rcases processFile_shape hp with ⟨_, rfl⟩ | ⟨_, _, _, _, _, _, _, hmono⟩
      · exact ih h
      · exact fun k x hx => ih h k x (hmono k x hx)

theorem runWorklist_sentinelInv {env : Env} {st st' : BState} {wl : List Path}
    (hs : sentinelInv st.allfiles) (h : runWorklist env st wl = .ok st') :
    sentinelInv st'.allfiles := by
  induction wl generalizing st with
  | nil =>
    simp only [runWorklist] at h
    cases h
    exact hs
  | cons fn rest ih =>
    simp only [runWorklist] at h
    cases hp : processFile env st fn with
    | error e => rw [hp] at h; cases h
    | ok st₁ =>
      rw [hp] at h
      exact ih (processFile_sentinelInv hs hp) h

theorem runWorklist_progress {env : Env} {st st' : BState} {wl : List Path}
    (h : runWorklist env st wl = .ok st') (hne : st'.newfiles ≠ st.newfiles) :
    ∃ fn ∈ wl, fn ∉ st.processed ∧ fn ∈ st'.processed := by
  induction wl generalizing st with
  | nil =>
    simp only [runWorklist] at h
    cases h
    exact absurd rfl hne
  | cons fn rest ih =>
    simp only [runWorklist] at h
    cases hp : processFile env st fn with
    | error e => rw [hp] at h; cases h
    | ok st₁ =>
      rw [hp] at h
      by_cases he : st₁.newfiles = st.newfiles
      · have hne₁ : st'.newfiles ≠ st₁.newfiles := by rw [he]; exact hne
        obtain ⟨g, hg₁, hg₂, hg₃⟩ := ih h hne₁
        have hsub : st.processed ⊆ st₁.processed := by
          rcases processFile_shape hp with ⟨_, rfl⟩ | ⟨_, hpr, _⟩
          · exact fun x hx => hx
          · rw [hpr]; exact fun x hx => by simp [hx]
        exact ⟨g, by simp [hg₁], fun hc => hg₂ (hsub hc), hg₃⟩
      · rcases processFile_shape hp with ⟨_, rfl⟩ | ⟨hnin, hpr, _⟩
        · exact absurd rfl he
        · refine ⟨fn, by simp, hnin, ?_⟩
          have : fn ∈ st₁.processed := by rw [hpr]; simp
          exact (runWorklist_processed h).1 this

theorem runWorklist_all_skip {env : Env} {st : BState} {wl : List Path}
    (h : ∀ fn ∈ wl, fn ∈ st.processed) : runWorklist env st wl = .ok st := by
  induction wl with
  | nil => rfl
  | cons fn rest ih =>
    simp only [runWorklist]
    rw [processFile_skip (h fn (by simp))]
    exact ih (fun g hg => h g (by simp [hg]))

theorem runWorklist_sentinel_wl {env : Env} {st st' : BState} {wl : List Path}
    {fn : Path} {f : NodeId} (hw : fn ∈ wl) (hp : fn ∉ st.processed)
    (hr : resolveId env fn = some f)
    (hflt : ¬(env.internal = true ∧ f.1 ∉ env.inroots))
    (h : runWorklist env st wl = .ok st') :
    Target.sentinel ∈ lookupTargets st'.allfiles f := by
  induction wl generalizing st with
  | nil => cases hw
  | cons g rest ih =>
    simp only [runWorklist] at h
    cases hq : processFile env st g with
    | error e => rw [hq] at h; cases h
    | ok st₁ =>
      rw [hq] at h
      by_cases hfg : fn = g
      · subst hfg
        have hadd := processFile_sentinel_added hp hr hflt hq
        exact runWorklist_allfiles_mono h f Target.sentinel hadd
      · have hw' : fn ∈ rest := by
          rcases List.mem_cons.mp hw with rfl | hw'
          · exact absurd rfl hfg
          · exact hw'
        have hp₁ : fn ∉ st₁.processed := by
          intro hc
          rcases processFile_shape hq with ⟨_, rfl⟩ | ⟨_, hpr, _⟩
          · exact hp hc
          · rw [hpr] at hc
            rcases List.mem_append.mp hc with hc' | hc'
            · exact hp hc'
            · exact hfg (by simpa using hc')
        exact ih hw' hp₁ h

theorem runRound_processed {env : Env} {st st' : BState} {wl : List Path}
    (h : runRound env st wl = .ok st') :
    st.processed ⊆ st'.processed ∧
      (∀ x ∈ st'.processed, x ∈ st.processed ∨ x ∈ wl) ∧
      (∀ fn ∈ wl, fn ∈ st'.processed) := by
  have h' : runWorklist env { st with newfiles := [] } wl = .ok st' := h
  have := runWorklist_processed h'
  simpa using this

theorem runRound_newfiles_from {env : Env} {st st' : BState} {wl U : List Path}
    (hU : ∀ fn, ∀ x ∈ (env.deps fn).1, x ∈ U)
    (h : runRound env st wl = .ok st') : ∀ x ∈ st'.newfiles, x ∈ U := by
  have h' : runWorklist env { st with newfiles := [] } wl = .ok st' := h
  intro x hx
  rcases runWorklist_newfiles_from hU h' x hx with hx' | hx'
  · simp at hx'
  · exact hx'

theorem runRound_newfiles_nodup {env : Env} {st st' : BState} {wl : List Path}
    (h : runRound env st wl = .ok st') : st'.newfiles.Nodup := by
  have h' : runWorklist env { st with newfiles := [] } wl = .ok st' := h
  exact runWorklist_newfiles_nodup (by simp) h'

theorem runRound_progress {env : Env} {st st' : BState} {wl : List Path}
    (h : runRound env st wl = .ok st') (hne : st'.newfiles ≠ []) :
    ∃ fn ∈ wl, fn ∉ st.processed ∧ fn ∈ st'.processed := by
  have h' : runWorklist env { st with newfiles := [] } wl = .ok st' := h
  have := runWorklist_progress h' (by simpa using hne)
  simpa using this

/-! ### Structure of `runLoop` (the `while 1` loop) -/

theorem runLoop_inv (env : Env) (Inv : BState → Prop)
    (hstep : ∀ st wl st', Inv st → runRound env st wl = .ok st' → Inv st') :
    ∀ fuel st wl st', Inv st → runLoop env fuel st wl = .finished st' →
      Inv st' := by
  intro fuel
  induction fuel with
  | zero =>
    intro st wl st' _ h
    simp [runLoop] at h
  | succ n ih =>
    intro st wl st' hInv h
    simp only [runLoop] at h
    cases hr : runRound env st wl with
    | error e => simp only [hr] at h; cases h
    | ok st₁ =>
      simp only [hr] at h
      have hInv₁ := hstep st wl st₁ hInv hr
      by_cases hc : env.follow = true ∧ st₁.newfiles ≠ []
      · rw [if_pos hc] at h
        exact ih st₁ _ st' hInv₁ h
      · rw [if_neg hc] at h
        cases h
        exact hInv₁

theorem runLoop_first_round {env : Env} {fuel : Nat} {st st' : BState}
    {wl : List Path} (h : runLoop env fuel st wl = .finished st') :
    ∃ st₁, runRound env st wl = .ok st₁ ∧
      (st' = st₁ ∨
        runLoop env (fuel - 1) st₁ (sortPaths st₁.newfiles) = .finished st') := by
  cases fuel with
  | zero => simp [runLoop] at h
  | succ n =>
    simp only [runLoop] at h
    cases hr : runRound env st wl with
    | error e => simp only [hr] at h; cases h
    | ok st₁ =>
      simp only [hr] at h
      by_cases hc : env.follow = true ∧ st₁.newfiles ≠ []
      · rw [if_pos hc] at h
        exact ⟨st₁, rfl, Or.inr (by simpa using h)⟩
      · rw [if_neg hc] at h
        cases h
        exact ⟨_, rfl, Or.inl rfl⟩

theorem runLoop_follow_off {env : Env} (hf : env.follow = false)
    {fuel : Nat} {st st₁ : BState} {wl : List Path}
    (hr : runRound env st wl = .ok st₁) :
    runLoop env (fuel + 1) st wl = .finished st₁ := by
  simp only [runLoop]
  simp only [hr]
  simp [hf]

theorem runLoop_stop {env : Env} {fuel : Nat} {st st₁ : BState}
    {wl : List Path} (hr : runRound env st wl = .ok st₁)
    (hn : st₁.newfiles = []) :
    runLoop env (fuel + 1) st wl = .finished st₁ := by
  simp only [runLoop]
  simp only [hr]
  simp [hn]

theorem runLoop_continue {env : Env} {fuel : Nat} {st st₁ : BState}
    {wl : List Path} (hr : runRound env st wl = .ok st₁)
    (hf : env.follow = true) (hn : st₁.newfiles ≠ []) :
    runLoop env (fuel + 1) st wl =
      runLoop env fuel st₁ (sortPaths st₁.newfiles) := by
  simp only [runLoop]
  simp only [hr]
  rw [if_pos ⟨hf, hn⟩]

/-! ### Termination of the loop -/

theorem filter_length_le {α : Type} (l : List α) (p q : α → Bool)
    (h : ∀ a, q a = true → p a = true) :
    (l.filter q).length ≤ (l.filter p).length := by
  induction l with
  | nil => simp
  | cons a l ih =>
    by_cases hq : q a = true
    · simp only [List.filter_cons, hq, h a hq, if_pos]
      simpa using ih
    · simp only [List.filter_cons, hq, if_false, Bool.false_eq_true, if_neg,
        not_false_eq_true]
      by_cases hp : p a = true
      · simp only [hp, if_pos]
        exact Nat.le_succ_of_le ih
      · simp only [hp, if_neg, Bool.false_eq_true, not_false_eq_true]
        exact ih

theorem filter_length_lt {α : Type} (l : List α) (p q : α → Bool)
    (h : ∀ a, q a = true → p a = true) (a₀ : α) (ha : a₀ ∈ l)
    (hp : p a₀ = true) (hq : q a₀ = false) :
    (l.filter q).length < (l.filter p).length := by
  induction l with
  | nil => cases ha
  | cons a l ih =>
    rcases List.mem_cons.mp ha with rfl | ha'
    · simp only [List.filter_cons, hp, hq, if_pos, Bool.false_eq_true,
        if_neg, not_false_eq_true, List.length_cons]
      exact Nat.lt_succ_of_le (filter_length_le l p q h)
    · by_cases hqa : q a = true
      · have hpa := h a hqa
        simp only [List.filter_cons, hqa, hpa, if_pos, List.length_cons]
        exact Nat.succ_lt_succ (ih ha')
      · by_cases hpa : p a = true
        · simp only [List.filter_cons, hqa, hpa, if_pos, Bool.false_eq_true,
            if_neg, not_false_eq_true, List.length_cons]
          exact Nat.lt_succ_of_lt (ih ha')
        · simp only [List.filter_cons, hqa, hpa, Bool.false_eq_true, if_neg,
            not_false_eq_true]
          exact ih ha'

theorem remaining_lt {U : List Path} {st st₂ : BState} {fn : Path}
    (hsub : st.processed ⊆ st₂.processed) (hU : fn ∈ U)
    (h₁ : fn ∉ st.processed) (h₂ : fn ∈ st₂.processed) :
    remaining U st₂ < remaining U st := by
  refine filter_length_lt U (fun u => decide (u ∉ st.processed))
    (fun u => decide (u ∉ st₂.processed)) ?_ fn hU (by simpa using h₁)
    (by simpa using h₂)
  intro a ha
  simp only [decide_eq_true_eq] at ha ⊢
  exact fun hc => ha (hsub hc)

theorem remaining_le (U : List Path) (st : BState) :
    remaining U st ≤ U.length :=
  List.length_filter_le _ _

theorem runLoop_no_fuelOut_aux {env : Env} {U : List Path}
    (hU : ∀ fn, ∀ x ∈ (env.deps fn).1, x ∈ U) :
    ∀ fuel (st : BState) (wl : List Path), (∀ x ∈ wl, x ∈ U) →
      remaining U st ≤ fuel → runLoop env (fuel + 1) st wl ≠ .fuelOut := by
  intro fuel
  induction fuel with
  | zero =>
    intro st wl hwl hrem h
    have hall : ∀ fn ∈ wl, fn ∈ st.processed := by
      intro fn hfn
      by_contra hc
      have hmem : fn ∈ U.filter (fun u => decide (u ∉ st.processed)) :=
        List.mem_filter.mpr ⟨hwl fn hfn, by simpa using hc⟩
      have hpos : 0 < remaining U st := by
        unfold remaining
        exact List.length_pos_of_mem hmem
      omega
    have hround : runRound env st wl = .ok { st with newfiles := [] } :=
      runWorklist_all_skip (by simpa using hall)
    simp only [runLoop] at h
    simp only [hround] at h
    simp at h
  | succ n ih =>
    intro st wl hwl hrem h
    simp only [runLoop] at h
    cases hr : runRound env st wl with
    | error e => simp only [hr] at h; cases h
    | ok st₁ =>
      simp only [hr] at h
      by_cases hc : env.follow = true ∧ st₁.newfiles ≠ []
      · rw [if_pos hc] at h
        refine ih st₁ (sortPaths st₁.newfiles) ?_ ?_ h
        · intro x hx
          exact runRound_newfiles_from hU hr x (mem_sortPaths.mp hx)
        · obtain ⟨fn, hfn, hnp, hpr⟩ := runRound_progress hr hc.2
          have := remaining_lt (runRound_processed hr).1 (hwl fn hfn) hnp hpr
          omega
      · rw [if_neg hc] at h
        cases h

theorem runLoop_total {env : Env} {U : List Path}
    (hU : ∀ fn, ∀ x ∈ (env.deps fn).1, x ∈ U) :
    ∀ (st : BState) (wl : List Path),
      runLoop env (U.length + 2) st wl ≠ .fuelOut := by
  intro st wl h
  have h' : runLoop env (U.length + 1 + 1) st wl = .fuelOut := h
  simp only [runLoop] at h'
  cases hr : runRound env st wl with
  | error e => simp only [hr] at h'; cases h'
  | ok st₁ =>
    simp only [hr] at h'
    by_cases hc : env.follow = true ∧ st₁.newfiles ≠ []
    · rw [if_pos hc] at h'
      refine runLoop_no_fuelOut_aux hU U.length st₁ (sortPaths st₁.newfiles)
        ?_ (remaining_le U st₁) h'
      intro x hx
      exact runRound_newfiles_from hU hr x (mem_sortPaths.mp hx)
    · rw [if_neg hc] at h'
      cases h'

/-! ### Extraction errors feed nothing but the report -/

theorem core_fields {st₁ st₂ : BState} (h : core st₁ = core st₂) :
    st₁.allfiles = st₂.allfiles ∧ st₁.processed = st₂.processed ∧
      st₁.newfiles = st₂.newfiles ∧ st₁.extracted = st₂.extracted := by
  simp only [core, Prod.mk.injEq] at h
  exact h

theorem processDep_stripErrs (env : Env) (f : NodeId) (st : BState)
    (d : Path) : processDep (stripErrs env) f st d = processDep env f st d :=
  rfl

theorem processDep_core {env : Env} {f : NodeId} {st₁ st₂ : BState}
    {d : Path} (h : core st₁ = core st₂) :
    (processDep env f st₁ d).map core = (processDep env f st₂ d).map core := by
  obtain ⟨h1, h2, h3, h4⟩ := core_fields h
  by_cases hI : env.internal = true
  · cases hr : resolveId env d with
    | none => simp [processDep, hI, hr]
    | some t =>
      by_cases hm : t.1 ∈ env.inroots <;>
        simp [processDep, hI, hr, hm, core, h1, h2, h3, h4, Except.map]
  · simp [processDep, hI, core, h1, h2, h3, h4, Except.map]

theorem runDeps_core {env : Env} {f : NodeId} {st₁ st₂ : BState}
    {ds : List Path} (h : core st₁ = core st₂) :
    (runDeps env f st₁ ds).map core = (runDeps env f st₂ ds).map core := by
  induction ds generalizing st₁ st₂ with
  | nil => simpa [runDeps, Except.map] using h
  | cons d rest ih =>
    have hd : (processDep env f st₁ d).map core =
        (processDep env f st₂ d).map core := processDep_core h
    simp only [runDeps]
    cases hp₁ : processDep env f st₁ d with
    | error e₁ =>
      cases hp₂ : processDep env f st₂ d with
      | error e₂ => rw [hp₁, hp₂] at hd
      | ok s₂ =>
        rw [hp₁, hp₂] at hd
        simp [Except.map] at hd
    | ok s₁ =>
      cases hp₂ : processDep env f st₂ d with
      | error e₂ =>
        rw [hp₁, hp₂] at hd
        simp [Except.map] at hd
      | ok s₂ =>
        rw [hp₁, hp₂] at hd
        simp only [Except.map, Except.ok.injEq] at hd
        exact ih hd

theorem processDep_deps_irrel {env envb : Env}
    (hrel : envb.relfile = env.relfile) (hint : envb.internal = env.internal)
    (hroots : envb.inroots = env.inroots) (f : NodeId) (st : BState)
    (d : Path) : processDep envb f st d = processDep env f st d := by
  unfold processDep resolveId
  rw [hrel, hint, hroots]

theorem runDeps_deps_irrel {env envb : Env}
    (hrel : envb.relfile = env.relfile) (hint : envb.internal = env.internal)
    (hroots : envb.inroots = env.inroots) (f : NodeId) :
    ∀ (ds : List Path) (st : BState),
      runDeps envb f st ds = runDeps env f st ds := by
  intro ds
  induction ds with
  | nil => intro st; rfl
  | cons d rest ih =>
    intro st
    simp only [runDeps, processDep_deps_irrel hrel hint hroots]
    cases hpd : processDep env f st d with
    | error e => rfl
    | ok s => exact ih s

theorem processFile_core_state {env : Env} {st₁ st₂ : BState} {fn : Path}
    (h : core st₁ = core st₂) :
    (processFile env st₁ fn).map core = (processFile env st₂ fn).map core := by
  obtain ⟨h1, h2, h3, h4⟩ := core_fields h
  by_cases hp : fn ∈ st₁.processed
  · have hp₂ : fn ∈ st₂.processed := h2 ▸ hp
    rw [processFile_skip hp, processFile_skip hp₂]
    simpa [Except.map] using h
  · have hp₂ : fn ∉ st₂.processed := h2 ▸ hp
    simp only [processFile, if_neg hp, if_neg hp₂, resolveId]
    cases hr : env.relfile (collapse fn) with
    | none => simp [Except.map, core, h1, h2, h3, h4]
    | some f =>
      simp only [hr]
      by_cases hflt : env.internal = true ∧ f.1 ∉ env.inroots
      · rw [if_pos hflt, if_pos hflt]
        simp [Except.map, core, h1, h2, h3, h4]
      · rw [if_neg hflt, if_neg hflt]
        apply runDeps_core
        simp [core, h1, h2, h3, h4]

theorem processFile_stripErrs_core (env : Env) (st : BState) (fn : Path) :
    (processFile (stripErrs env) st fn).map core =
      (processFile env st fn).map core := by
  by_cases hp : fn ∈ st.processed
  · rw [processFile_skip hp, processFile_skip hp]
  · simp only [processFile, if_neg hp, stripErrs, resolveId]
    cases hr : env.relfile (collapse fn) with
    | none => simp [Except.map, core]
    | some f =>
      simp only [hr]
      by_cases hflt : env.internal = true ∧ f.1 ∉ env.inroots
      · rw [if_pos hflt, if_pos hflt]
        simp [Except.map, core]
      · rw [if_neg hflt, if_neg hflt]
        rw [@runDeps_deps_irrel env
            { deps := fun p => ((env.deps p).1, []), relfile := env.relfile,
              internal := env.internal, follow := env.follow,
              inroots := env.inroots } rfl rfl rfl f]
        apply runDeps_core
        simp [core]

theorem processFile_core {env : Env} {st₁ st₂ : BState} {fn : Path}
    (h : core st₁ = core st₂) :
    (processFile env st₁ fn).map core =
      (processFile (stripErrs env) st₂ fn).map core :=
  (processFile_core_state h).trans (processFile_stripErrs_core env st₂ fn).symm

theorem runWorklist_core {env : Env} {st₁ st₂ : BState} {wl : List Path}
    (h : core st₁ = core st₂) :
    (runWorklist env st₁ wl).map core =
      (runWorklist (stripErrs env) st₂ wl).map core := by
  induction wl generalizing st₁ st₂ with
  | nil => simpa [runWorklist, Except.map] using h
  | cons fn rest ih =>
    have hd : (processFile env st₁ fn).map core =
        (processFile (stripErrs env) st₂ fn).map core := processFile_core h
    simp only [runWorklist]
    cases hp₁ : processFile env st₁ fn with
    | error e₁ =>
      cases hp₂ : processFile (stripErrs env) st₂ fn with
      | error e₂ => rw [hp₁, hp₂] at hd
      | ok s₂ =>
        rw [hp₁, hp₂] at hd
        simp [Except.map] at hd
    | ok s₁ =>
      cases hp₂ : processFile (stripErrs env) st₂ fn with
      | error e₂ =>
        rw [hp₁, hp₂] at hd
        simp [Except.map] at hd
      | ok s₂ =>
        rw [hp₁, hp₂] at hd
        simp only [Except.map, Except.ok.injEq] at hd
        exact ih hd

theorem runRound_core {env : Env} {st₁ st₂ : BState} {wl : List Path}
    (h : core st₁ = core st₂) :
    (runRound env st₁ wl).map core =
      (runRound (stripErrs env) st₂ wl).map core := by
  obtain ⟨h1, h2, h3, h4⟩ := core_fields h
  apply runWorklist_core
  simp [core, h1, h2, h3, h4]

theorem runLoop_core {env : Env} :
    ∀ (fuel : Nat) {st₁ st₂ : BState} (wl : List Path),
      core st₁ = core st₂ →
      resRel (runLoop env fuel st₁ wl) (runLoop (stripErrs env) fuel st₂ wl) := by
  intro fuel
  induction fuel with
  | zero =>
    intro st₁ st₂ wl _
    simp [runLoop, resRel]
  | succ n ih =>
    intro st₁ st₂ wl h
    have hd : (runRound env st₁ wl).map core =
        (runRound (stripErrs env) st₂ wl).map core := runRound_core h
    simp only [runLoop]
    cases hp₁ : runRound env st₁ wl with
    | error e₁ =>
      cases hp₂ : runRound (stripErrs env) st₂ wl with
      | error e₂ =>
        cases e₁
        cases e₂
        dsimp only
        simp [resRel]
      | ok s₂ =>
        rw [hp₁, hp₂] at hd
        simp [Except.map] at hd
    | ok s₁ =>
      cases hp₂ : runRound (stripErrs env) st₂ wl with
      | error e₂ =>
        rw [hp₁, hp₂] at hd
        simp [Except.map] at hd
      | ok s₂ =>
        rw [hp₁, hp₂] at hd
        simp only [Except.map, Except.ok.injEq] at hd
        obtain ⟨g1, g2, g3, g4⟩ := core_fields hd
        have hfol : (stripErrs env).follow = env.follow := rfl
        dsimp only
        rw [hfol, ← g3]
        by_cases hc : env.follow = true ∧ s₁.newfiles ≠ []
        · rw [if_pos hc, if_pos hc]
          exact ih (sortPaths s₁.newfiles) hd
        · rw [if_neg hc, if_neg hc]
          simpa [resRel] using hd

/-! ### The error report -/

theorem mem_reportNames {k : ErrKind} {errs : List (ErrKind × String)}
    {n : String} : n ∈ reportNames k errs ↔ (k, n) ∈ errs := by
  unfold reportNames
  rw [(sortNames_perm _).mem_iff, List.mem_dedup, List.mem_map]
  constructor
  · rintro ⟨e, he, rfl⟩
    obtain ⟨e₁, e₂⟩ := e
    have hm := List.mem_filter.mp he
    have hk : e₁ = k := by simpa using hm.2
    simpa [hk] using hm.1
  · intro h
    exact ⟨(k, n), List.mem_filter.mpr ⟨h, by simp⟩, rfl⟩

theorem reportNames_nodup (k : ErrKind) (errs : List (ErrKind × String)) :
    (reportNames k errs).Nodup := by
  unfold reportNames
  exact (sortNames_perm _).symm.nodup (List.nodup_dedup _)

theorem reportNames_sorted (k : ErrKind) (errs : List (ErrKind × String)) :
    List.Sorted strLeRel (reportNames k errs) := by
  unfold reportNames
  exact sortNames_sorted _

theorem summaryReport_import {verbose : Nat} {errs : List (ErrKind × String)}
    (h : reportNames ErrKind.errorImport errs ≠ []) :
    ("Modules that could not be imported:",
      reportNames ErrKind.errorImport errs) ∈ summaryReport verbose errs := by
  apply List.mem_filterMap.mpr
  refine ⟨("Modules that could not be imported:", ErrKind.errorImport), ?_, ?_⟩
  · simp [summaryTiers]
  · simp [h]

theorem summaryReport_symbol {verbose : Nat} {errs : List (ErrKind × String)} :
    (∃ l, ("Symbols that could not be imported as modules:", l) ∈
        summaryReport verbose errs) ↔
      2 ≤ verbose ∧ reportNames ErrKind.errorSymbol errs ≠ [] := by
  constructor
  · rintro ⟨l, hl⟩
    obtain ⟨r, hr, hsome⟩ := List.mem_filterMap.mp hl
    by_cases hv : 2 ≤ verbose
    · refine ⟨hv, ?_⟩
      have hr' : r = ("Modules that could not be imported:",
            ErrKind.errorImport) ∨
          r = ("Symbols that could not be imported as modules:",
            ErrKind.errorSymbol) := by
        simpa [summaryTiers, hv] using hr
      rcases hr' with rfl | rfl
      · by_cases hn : reportNames ErrKind.errorImport errs = []
        · simp [hn] at hsome
        · simp [hn] at hsome
      · by_cases hn : reportNames ErrKind.errorSymbol errs = []
        · simp [hn] at hsome
        · exact hn
    · exfalso
      have hr' : r = ("Modules that could not be imported:",
          ErrKind.errorImport) := by
        simpa [summaryTiers, hv] using hr
      subst hr'
      by_cases hn : reportNames ErrKind.errorImport errs = []
      · simp [hn] at hsome
      · simp [hn] at hsome
  · rintro ⟨hv, hn⟩
    refine ⟨reportNames ErrKind.errorSymbol errs, List.mem_filterMap.mpr
      ⟨("Symbols that could not be imported as modules:",
        ErrKind.errorSymbol), ?_, ?_⟩⟩
    · simp [summaryTiers, hv]
    · simp [hn]

theorem summaryReport_mem {verbose : Nat} {errs : List (ErrKind × String)}
    {p : String × List String} (hp : p ∈ summaryReport verbose errs) :
    (p = ("Modules that could not be imported:",
        reportNames ErrKind.errorImport errs) ∨
      p = ("Symbols that could not be imported as modules:",
        reportNames ErrKind.errorSymbol errs)) ∧ p.2 ≠ [] := by
  obtain ⟨r, hr, hsome⟩ := List.mem_filterMap.mp hp
  have hproc : ∀ k : ErrKind, r.2 = k →
      (if reportNames k errs = [] then none
        else some (r.1, reportNames k errs)) = some p →
      p = (r.1, reportNames k errs) ∧ p.2 ≠ [] := by
    intro k hk hs
    by_cases hn : reportNames k errs = []
    · simp [hn] at hs
    · simp [hn] at hs
      exact ⟨hs.symm, by rw [← hs]; simpa using hn⟩
  by_cases hv : 2 ≤ verbose
  · have hr' : r = ("Modules that could not be imported:",
          ErrKind.errorImport) ∨
        r = ("Symbols that could not be imported as modules:",
          ErrKind.errorSymbol) := by
      simpa [summaryTiers, hv] using hr
    rcases hr' with rfl | rfl
    · have := hproc ErrKind.errorImport rfl (by simpa using hsome)
      exact ⟨Or.inl this.1, this.2⟩
    · have := hproc ErrKind.errorSymbol rfl (by simpa using hsome)
      exact ⟨Or.inr this.1, this.2⟩
  · have hr' : r = ("Modules that could not be imported:",
        ErrKind.errorImport) := by
      simpa [summaryTiers, hv] using hr
    subst hr'
    have := hproc ErrKind.errorImport rfl (by simpa using hsome)
    exact ⟨Or.inl this.1, this.2⟩

/-! ### The claims -/

/-- Claim C1, counterexample.  The claim asserts that in internal-only mode
an out-of-root dependency target is still queued for future discovery.  In
the code the `continue` of gendeps.py:142 skips the queueing too: processing
the external dependency of `a.py` leaves the state unchanged (no edge and no
`newfiles` entry), and in a full follow-mode run the external file is never
discovered or extracted. -/
theorem gendeps_c1_counterexample :
    processDep envC1 (rootA, ["a.py"]) initState pext = Except.ok initState ∧
    pext ∉ initState.newfiles ∧
    runLoop envC1 5 initState [pa] = RunResult.finished stC1 ∧
    pext ∉ stC1.extracted ∧ pext ∉ stC1.processed := by decide

/-- Claim C1 (corrected).  In internal-only mode, when a dependency
target's resolved identity has a root outside the internal root set, the
builder skips both the edge and the queueing: the per-dependency step
returns the state unchanged, the target's pre-collapse path is never added
to the round's candidate set, and no edge to that identity is ever
recorded. -/
theorem gendeps_c1_amended {env : Env} {f : NodeId} {st : BState} {d : Path}
    {t : NodeId} (hI : env.internal = true) (hr : resolveId env d = some t)
    (hm : t.1 ∉ env.inroots) :
    processDep env f st d = Except.ok st ∧
    (∀ (ds : List Path) (st' : BState), runDeps env f st ds = Except.ok st' →
      d ∉ st.newfiles → d ∉ st'.newfiles) ∧
    (∀ (ds : List Path) (st' : BState) (k : NodeId),
      runDeps env f st ds = Except.ok st' →
      Target.node t ∉ lookupTargets st.allfiles k →
      Target.node t ∉ lookupTargets st'.allfiles k) := by
  refine ⟨processDep_skip hI hr hm, ?_, ?_⟩
  · intro ds
    induction ds generalizing st with
    | nil =>
      intro st' h hd
      simp only [runDeps] at h
      cases h
      exact hd
    | cons d₀ rest ih =>
      intro st' h hd
      simp only [runDeps] at h
      cases hp : processDep env f st d₀ with
      | error e => rw [hp] at h; cases h
      | ok st₁ =>
        rw [hp] at h
        by_cases hdd : d = d₀
        · subst hdd
          rw [processDep_skip hI hr hm] at hp
          cases hp
          exact ih st' h hd
        · have h1 := processDep_newfiles hp
          have hd₁ : d ∉ st₁.newfiles := by
            intro hc
            rcases h1.2 d hc with hc' | rfl
            · exact hd hc'
            · exact hdd rfl
          exact ih st' h hd₁
  · intro ds st' k h hk hc
    rcases runDeps_new_target hI h k _ hc with hc' | ⟨t', ht', hroots⟩
    · exact hk hc'
    · cases ht'
      exact hm hroots

/-- Claim C1, witness: the amended statement at the concrete internal-only
run, where `a.py` depends on the external `os.py` whose root `/usr` is not
an internal root. -/
theorem gendeps_c1_witness :
    processDep envC1 (rootA, ["a.py"]) initState pext = Except.ok initState :=
  (gendeps_c1_amended
    (show envC1.internal = true by decide)
    (show resolveId envC1 pext = some (["usr"], ["os.py"]) by decide)
    (show (["usr"], ["os.py"]).1 ∉ envC1.inroots by decide)).1

/-- Claim C2 (code bug).  The claim — matching the specification — says a
dependency target whose identity resolution returns null is dropped: no
edge recorded, nothing queued.  The code of gendeps.py:140-144 has no
`None` check on `to_` (unlike the `from_` check on line 128): with
internal-only off it records the bare Python `None` as an edge target and
queues the unresolvable file, and with internal-only on the expression
`to_[0]` raises `TypeError` and crashes the whole run.  This theorem
evaluates the embedded code at such a failing input. -/
theorem gendeps_c2_eval :
    resolveId envW pext = none ∧
    processDep envW (rootA, ["a.py"]) initState pext =
      Except.ok { allfiles := [((rootA, ["a.py"]), [Target.pyNone])],
                  allerrors := [], processed := [], newfiles := [pext],
                  extracted := [] } ∧
    Target.pyNone ∈ lookupTargets
      [((rootA, ["a.py"]), [Target.pyNone])] (rootA, ["a.py"]) ∧
    processDep { envW with internal := true } (rootA, ["a.py"]) initState
      pext = Except.error PyErr.typeError := by decide

/-- Claim C3 (confirmed).  Every file of the worklist that is not yet
processed, whose collapsed path resolves to a non-null identity passing the
internal-only filter, ends the run with the `(None, None)` sentinel in its
identity's edge set — so the identity appears as a key of the edge mapping
even with zero dependencies. -/
theorem gendeps_c3 {env : Env} {st st' : BState} {wl : List Path}
    {fuel : Nat} {fn : Path} {f : NodeId} (hw : fn ∈ wl)
    (hp : fn ∉ st.processed) (hr : resolveId env fn = some f)
    (hflt : ¬(env.internal = true ∧ f.1 ∉ env.inroots))
    (hrun : runLoop env fuel st wl = RunResult.finished st') :
    Target.sentinel ∈ lookupTargets st'.allfiles f ∧
      (f, lookupTargets st'.allfiles f) ∈ st'.allfiles := by
  obtain ⟨st₁, hr1, hrest⟩ := runLoop_first_round hrun
  have h1 : Target.sentinel ∈ lookupTargets st₁.allfiles f := by
    have h' : runWorklist env { st with newfiles := [] } wl = .ok st₁ := hr1
    exact runWorklist_sentinel_wl hw
      (show fn ∉ ({ st with newfiles := [] } : BState).processed from hp)
      hr hflt h'
  have hs' : Target.sentinel ∈ lookupTargets st'.allfiles f := by
    rcases hrest with rfl | hcont
    · exact h1
    · exact runLoop_inv env
        (fun s => Target.sentinel ∈ lookupTargets s.allfiles f)
        (fun s w s2 hi hr2 => by
          have h'' : runWorklist env { s with newfiles := [] } w = .ok s2 := hr2
          exact runWorklist_allfiles_mono h'' f _ hi)
        _ _ _ _ h1 hcont
  exact ⟨hs', lookupTargets_mem (fun he => by simp [he] at hs')⟩

/-- Claim C3, witness: in the concrete follow-mode run, `a.py`'s identity
holds the sentinel and appears as a key of the final edge mapping. -/
theorem gendeps_c3_witness :
    Target.sentinel ∈ lookupTargets stW.allfiles (rootA, ["a.py"]) ∧
      ((rootA, ["a.py"]), lookupTargets stW.allfiles (rootA, ["a.py"])) ∈
        stW.allfiles :=
  gendeps_c3 (show pa ∈ [pa] by decide)
    (show pa ∉ initState.processed by decide)
    (show resolveId envW pa = some (rootA, ["a.py"]) by decide)
    (by decide)
    (show runLoop envW 5 initState [pa] = RunResult.finished stW by decide)

/-- Claim C4 (confirmed).  The package collapse rule is applied before
identity resolution on both sides: a package directory and its
`__init__.py` file collapse to the same path, resolve to the same node
identity, and recording a dependency on either of them extends the edge
mapping identically. -/
theorem gendeps_c4 (env : Env) (P : Path) (h : basename P ≠ "__init__.py") :
    collapse (P ++ ["__init__.py"]) = collapse P ∧
    resolveId env (P ++ ["__init__.py"]) = resolveId env P ∧
    ∀ (st : BState) (f : NodeId),
      (processDep env f st (P ++ ["__init__.py"])).map BState.allfiles =
        (processDep env f st P).map BState.allfiles := by
  have hc : collapse (P ++ ["__init__.py"]) = P := by
    unfold collapse basename dirname
    simp
  have hcP : collapse P = P := by
    unfold collapse
    rw [if_neg h]
  have hcc : collapse (P ++ ["__init__.py"]) = collapse P := by rw [hc, hcP]
  have hres : resolveId env (P ++ ["__init__.py"]) = resolveId env P := by
    unfold resolveId
    rw [hcc]
  refine ⟨hcc, hres, ?_⟩
  intro st f
  by_cases hI : env.internal = true
  · cases hr : resolveId env P with
    | none => simp [processDep, hI, hres, hr, Except.map]
    | some t =>
      by_cases hm : t.1 ∈ env.inroots <;>
        simp [processDep, hI, hres, hr, hm, Except.map]
  · simp [processDep, hI, hres, Except.map]

/-- Claim C4, witness: the concrete package `/proj/pkg` and its
initializer file produce the same identity and the same recorded edges. -/
theorem gendeps_c4_witness :
    resolveId envW (ppkg ++ ["__init__.py"]) = resolveId envW ppkg ∧
    (processDep envW (rootA, ["a.py"]) initState
        (ppkg ++ ["__init__.py"])).map BState.allfiles =
      (processDep envW (rootA, ["a.py"]) initState ppkg).map BState.allfiles :=
  ⟨(gendeps_c4 envW ppkg (by decide)).2.1,
   (gendeps_c4 envW ppkg (by decide)).2.2 initState (rootA, ["a.py"])⟩

/-- Claim C5 (confirmed).  Starting from a fresh state, the extractor
invocation trace of a finished run has no duplicates and covers every file
of the initial worklist, the trace coincides with the processed set, and a
file already in the processed set is skipped with no state change (hence
without re-extraction). -/
theorem gendeps_c5 {env : Env} {st st' : BState} {wl : List Path}
    {fuel : Nat} (h0 : st.processed = [] ∧ st.extracted = [])
    (hrun : runLoop env fuel st wl = RunResult.finished st') :
    st'.extracted = st'.processed ∧ st'.extracted.Nodup ∧
      (∀ fn ∈ wl, fn ∈ st'.extracted) ∧
      (∀ (stx : BState) (fn : Path), fn ∈ stx.processed →
        processFile env stx fn = Except.ok stx) := by
  have hsync : st'.extracted = st'.processed ∧ st'.processed.Nodup := by
    refine runLoop_inv env
      (fun s => s.extracted = s.processed ∧ s.processed.Nodup) ?_
      fuel st wl st' ⟨by rw [h0.1, h0.2], by rw [h0.1]; exact List.nodup_nil⟩
      hrun
    intro s w s2 hi hr2
    have h'' : runWorklist env { s with newfiles := [] } w = .ok s2 := hr2
    exact runWorklist_extracted_sync
      (show ({ s with newfiles := [] } : BState).extracted =
        ({ s with newfiles := [] } : BState).processed from hi.1)
      (show ({ s with newfiles := [] } : BState).processed.Nodup from hi.2) h''
  refine ⟨hsync.1, by rw [hsync.1]; exact hsync.2, ?_,
    fun stx fn hmem => processFile_skip hmem⟩
  intro fn hfn
  obtain ⟨st₁, hr1, hrest⟩ := runLoop_first_round hrun
  have h1 : fn ∈ st₁.processed := (runRound_processed hr1).2.2 fn hfn
  have h2 : fn ∈ st'.processed := by
    rcases hrest with rfl | hcont
    · exact h1
    · exact runLoop_inv env (fun s => fn ∈ s.processed)
        (fun s w s2 hi hr2 => (runRound_processed hr2).1 hi)
        _ _ _ _ h1 hcont
  rw [hsync.1]
  exact h2

/-- Claim C5, witness: in the concrete run (where `a.py` and `b.py` import
each other through `a.py`'s worklist entry) the trace is duplicate-free and
covers the worklist. -/
theorem gendeps_c5_witness :
    stW.extracted = stW.processed ∧ stW.extracted.Nodup ∧
      pa ∈ stW.extracted := by
  have h := gendeps_c5
    (⟨by decide, by decide⟩ :
      initState.processed = [] ∧ initState.extracted = [])
    (show runLoop envW 5 initState [pa] = RunResult.finished stW by decide)
  exact ⟨h.1, h.2.1, h.2.2.1 pa (by decide)⟩

/-- Claim C6, counterexample.  The claim says the next worklist is the
sorted deduplicated set of newly discovered files *not already processed*,
and that the loop stops when that set is empty.  In the import cycle
`a.py ↔ b.py`, after round one every discovered file is already processed —
the claimed next worklist is empty — yet `newfiles` is non-empty, so the
loop (gendeps.py:147-150) runs one more round instead of stopping: with a
budget of one round it runs out, and with two rounds it finishes after a
round that processes nothing. -/
theorem gendeps_c6_counterexample :
    runRound envC6 initState [pa, pb] = Except.ok stC6 ∧
    stC6.newfiles ≠ [] ∧
    stC6.newfiles.filter (fun p => decide (p ∉ stC6.processed)) = [] ∧
    runLoop envC6 1 initState [pa, pb] = RunResult.fuelOut ∧
    runLoop envC6 2 initState [pa, pb] =
      RunResult.finished { stC6 with newfiles := [] } := by decide

/-- Claim C6 (corrected).  When follow mode is disabled the loop stops
after round one; when the round discovers nothing the loop stops; otherwise
the next round's worklist is exactly the sorted, duplicate-free list with
the same members as this round's `newfiles` — including any already
processed files, which are skipped at the top of the next round. -/
theorem gendeps_c6_amended {env : Env} {st st₁ : BState} {wl : List Path}
    {fuel : Nat} (hr : runRound env st wl = Except.ok st₁) :
    (env.follow = false →
      runLoop env (fuel + 1) st wl = RunResult.finished st₁) ∧
    (st₁.newfiles = [] →
      runLoop env (fuel + 1) st wl = RunResult.finished st₁) ∧
    (env.follow = true → st₁.newfiles ≠ [] →
      runLoop env (fuel + 1) st wl =
        runLoop env fuel st₁ (sortPaths st₁.newfiles) ∧
      st₁.newfiles.Nodup ∧ (sortPaths st₁.newfiles).Nodup ∧
      List.Sorted pathLeRel (sortPaths st₁.newfiles) ∧
      (∀ x, x ∈ sortPaths st₁.newfiles ↔ x ∈ st₁.newfiles)) :=
  ⟨fun hf => runLoop_follow_off hf hr,
   fun hn => runLoop_stop hr hn,
   fun hf hn => ⟨runLoop_continue hr hf hn, runRound_newfiles_nodup hr,
     sortPaths_nodup (runRound_newfiles_nodup hr), sortPaths_sorted _,
     fun x => mem_sortPaths⟩⟩

/-- Claim C6, witness: the amended statement at the concrete cyclic round,
whose non-empty `newfiles` forces one more round with the sorted
worklist. -/
theorem gendeps_c6_witness :
    runLoop envC6 2 initState [pa, pb] =
      runLoop envC6 1 stC6 (sortPaths stC6.newfiles) ∧
    (sortPaths stC6.newfiles).Nodup ∧
    List.Sorted pathLeRel (sortPaths stC6.newfiles) ∧
    (pa ∈ sortPaths stC6.newfiles ↔ pa ∈ stC6.newfiles) := by
  have h := (@gendeps_c6_amended envC6 initState stC6 [pa, pb] 1
    (show runRound envC6 initState [pa, pb] = Except.ok stC6 by decide)).2.2
    (show envC6.follow = true by decide)
    (show stC6.newfiles ≠ [] by decide)
  exact ⟨h.1, h.2.2.1, h.2.2.2.1, h.2.2.2.2 pa⟩

/-- Claim C7 (confirmed).  On a finite universe `U` containing every path
the extractor can return, the loop terminates: the processed set only
grows, an already processed file is skipped unchanged (so import cycles
cause no re-extraction), and `U.length + 2` rounds always suffice to leave
the loop — the bounded interpreter never exhausts its budget. -/
theorem gendeps_c7 {env : Env} {U : List Path}
    (hU : ∀ fn, ∀ x ∈ (env.deps fn).1, x ∈ U) :
    (∀ (st : BState) (fn : Path), fn ∈ st.processed →
      processFile env st fn = Except.ok st) ∧
    (∀ (st : BState) (wl : List Path) (st' : BState),
      runRound env st wl = Except.ok st' → st.processed ⊆ st'.processed) ∧
    (∀ (st : BState) (wl : List Path),
      runLoop env (U.length + 2) st wl ≠ RunResult.fuelOut) :=
  ⟨fun st fn h => processFile_skip h,
   fun st wl st' h => (runRound_processed h).1,
   fun st wl => runLoop_total hU st wl⟩

/-- Claim C7, witness: on the concrete cyclic environment with universe
`[pa, pb, pext]`, five rounds never exhaust the budget. -/
theorem gendeps_c7_witness :
    runLoop envW 5 initState [pa] ≠ RunResult.fuelOut := by
  have hU : ∀ fn, ∀ x ∈ (envW.deps fn).1, x ∈ [pa, pb, pext] := by
    intro fn x hx
    by_cases h1 : fn = pa
    · have he : (envW.deps fn).1 = [pb, pext] := by rw [h1]; rfl
      rw [he] at hx
      rcases List.mem_cons.mp hx with rfl | hx2
      · simp
      · rcases List.mem_cons.mp hx2 with rfl | hx3
        · simp
        · cases hx3
    · by_cases h2 : fn = pb
      · have he : (envW.deps fn).1 = [pa] := by rw [h2]; rfl
        rw [he] at hx
        rcases List.mem_cons.mp hx with rfl | hx2
        · simp
        · cases hx2
      · have he : (envW.deps fn).1 = [] := by
          show (depsW fn).1 = []
          unfold depsW
          rw [if_neg h1, if_neg h2]
        rw [he] at hx
        cases hx
  have h := (gendeps_c7 hU).2.2 initState [pa]
  simpa using h

/-- Claim C8 (confirmed).  The end-of-run report groups errors by kind,
deduplicates each kind's names and sorts them; the unresolved-import tier
is surfaced at every verbosity whenever non-empty, while the
symbol-not-a-module tier is surfaced exactly when the verbosity is at
least 2 and its name set is non-empty; every emitted tier is one of those
two and is non-empty. -/
theorem gendeps_c8 (verbose : Nat) (errs : List (ErrKind × String)) :
    (∀ k n, n ∈ reportNames k errs ↔ (k, n) ∈ errs) ∧
    (∀ k, (reportNames k errs).Nodup ∧
      List.Sorted strLeRel (reportNames k errs)) ∧
    (reportNames ErrKind.errorImport errs ≠ [] →
      ("Modules that could not be imported:",
        reportNames ErrKind.errorImport errs) ∈ summaryReport verbose errs) ∧
    ((∃ l, ("Symbols that could not be imported as modules:", l) ∈
        summaryReport verbose errs) ↔
      2 ≤ verbose ∧ reportNames ErrKind.errorSymbol errs ≠ []) ∧
    (∀ p ∈ summaryReport verbose errs,
      (p = ("Modules that could not be imported:",
          reportNames ErrKind.errorImport errs) ∨
        p = ("Symbols that could not be imported as modules:",
          reportNames ErrKind.errorSymbol errs)) ∧ p.2 ≠ []) :=
  ⟨fun _ _ => mem_reportNames,
   fun k => ⟨reportNames_nodup k errs, reportNames_sorted k errs⟩,
   fun h => summaryReport_import h,
   summaryReport_symbol,
   fun _ hp => summaryReport_mem hp⟩

/-- Claim C8, witness: with a duplicated import error for `os` and a symbol
error for `x`, the import tier appears even at verbosity 0, the symbol tier
requires verbosity 2, and the names are deduplicated. -/
theorem gendeps_c8_witness :
    ("Modules that could not be imported:", reportNames ErrKind.errorImport
        [(ErrKind.errorImport, "os"), (ErrKind.errorImport, "os"),
          (ErrKind.errorSymbol, "x")]) ∈
      summaryReport 0 [(ErrKind.errorImport, "os"),
        (ErrKind.errorImport, "os"), (ErrKind.errorSymbol, "x")] ∧
    ("os" ∈ reportNames ErrKind.errorImport [(ErrKind.errorImport, "os"),
      (ErrKind.errorImport, "os"), (ErrKind.errorSymbol, "x")]) ∧
    (reportNames ErrKind.errorImport [(ErrKind.errorImport, "os"),
      (ErrKind.errorImport, "os"), (ErrKind.errorSymbol, "x")]).Nodup := by
  have h := gendeps_c8 0 [(ErrKind.errorImport, "os"),
    (ErrKind.errorImport, "os"), (ErrKind.errorSymbol, "x")]
  exact ⟨h.2.2.1 (by decide),
    (h.1 ErrKind.errorImport "os").mpr (by decide),
    (h.2.1 ErrKind.errorImport).1⟩

/-- Claim C9 (confirmed).  A named input path that does not exist aborts
the run with a hard configuration failure naming that path; internal-only
mode with an empty resolved root set likewise aborts before the loop; and
the error component of the extractor's output never influences the outcome
beyond the error report — stripping all extraction errors yields the same
result up to `allerrors`. -/
theorem gendeps_c9 :
    (∀ (fsEx : Path → Bool) (findRoots : List Path → List Path)
       (deps : Path → List Path × List (ErrKind × String))
       (relf : Path → Option NodeId) (opts : Opts) (args wl : List Path)
       (fuel : Nat) (a : Path),
       args.find? (fun x => !(fsEx x)) = some a →
       gendepsRun fsEx findRoots deps relf opts args wl fuel =
         RunResult.configError (ConfigError.fileNotExists a)) ∧
    (∀ (fsEx : Path → Bool) (findRoots : List Path → List Path)
       (deps : Path → List Path × List (ErrKind × String))
       (relf : Path → Option NodeId) (opts : Opts) (args wl : List Path)
       (fuel : Nat),
       args.find? (fun x => !(fsEx x)) = none → opts.internal = true →
       findRoots args = [] →
       gendepsRun fsEx findRoots deps relf opts args wl fuel =
         RunResult.configError ConfigError.noPackageRoots) ∧
    (∀ (fsEx : Path → Bool) (findRoots : List Path → List Path)
       (deps : Path → List Path × List (ErrKind × String))
       (relf : Path → Option NodeId) (opts : Opts) (args wl : List Path)
       (fuel : Nat),
       resRel (gendepsRun fsEx findRoots deps relf opts args wl fuel)
         (gendepsRun fsEx findRoots (fun p => ((deps p).1, []))
           relf opts args wl fuel)) := by
  refine ⟨?_, ?_, ?_⟩
  · intro fsEx findRoots deps relf opts args wl fuel a hfind
    simp [gendepsRun, hfind]
  · intro fsEx findRoots deps relf opts args wl fuel hfind hint hroots
    simp [gendepsRun, hfind, hint, hroots]
  · intro fsEx findRoots deps relf opts args wl fuel
    unfold gendepsRun
    cases hfind : args.find? (fun x => !(fsEx x)) with
    | some a => simp [resRel]
    | none =>
      by_cases hcond : opts.internal = true ∧ findRoots args = []
      · simp only [if_pos hcond]
        simp [resRel]
      · simp only [if_neg hcond]
        exact runLoop_core fuel wl rfl

/-- Claim C9, witness: a missing input path aborts with the matching
configuration error; internal-only with no roots aborts; and stripping the
extraction errors of the concrete run leaves the outcome related up to the
report. -/
theorem gendeps_c9_witness :
    gendepsRun (fun p => decide (p = pa)) (fun _ => [rootA]) depsW
        (relfileSpec [rootA] [".svn"]) ⟨false, true, 0⟩ [pa, pb] [pa] 5 =
      RunResult.configError (ConfigError.fileNotExists pb) ∧
    gendepsRun (fun _ => true) (fun _ => []) depsW
        (relfileSpec [rootA] [".svn"]) ⟨true, true, 0⟩ [pa] [pa] 5 =
      RunResult.configError ConfigError.noPackageRoots ∧
    resRel (gendepsRun (fun _ => true) (fun _ => [rootA]) depsW
        (relfileSpec [rootA] [".svn"]) ⟨false, true, 0⟩ [pa] [pa] 5)
      (gendepsRun (fun _ => true) (fun _ => [rootA])
        (fun p => ((depsW p).1, []))
        (relfileSpec [rootA] [".svn"]) ⟨false, true, 0⟩ [pa] [pa] 5) :=
  ⟨gendeps_c9.1 (fun p => decide (p = pa)) (fun _ => [rootA]) depsW
      (relfileSpec [rootA] [".svn"]) ⟨false, true, 0⟩ [pa, pb] [pa] 5 pb
      (by decide),
   gendeps_c9.2.1 (fun _ => true) (fun _ => []) depsW
      (relfileSpec [rootA] [".svn"]) ⟨true, true, 0⟩ [pa] [pa] 5
      (by decide) rfl rfl,
   gendeps_c9.2.2 (fun _ => true) (fun _ => [rootA]) depsW
      (relfileSpec [rootA] [".svn"]) ⟨false, true, 0⟩ [pa] [pa] 5⟩

/-- Claim C10 (confirmed).  Every key of the edge mapping holds the
`(None, None)` sentinel: the invariant is preserved by each per-file step
(the sentinel is added before any dependency edge of that file, and keys
are created no other way) and therefore holds for every key after a
finished run from a state satisfying it. -/
theorem gendeps_c10 (env : Env) :
    (∀ (st st' : BState) (fn : Path), sentinelInv st.allfiles →
      processFile env st fn = Except.ok st' → sentinelInv st'.allfiles) ∧
    (∀ (fuel : Nat) (st : BState) (wl : List Path) (st' : BState),
      sentinelInv st.allfiles →
      runLoop env fuel st wl = RunResult.finished st' →
      ∀ kv ∈ st'.allfiles, Target.sentinel ∈ kv.2) := by
  constructor
  · exact fun st st' fn hs h => processFile_sentinelInv hs h
  · intro fuel st wl st' hs hrun
    exact runLoop_inv env (fun s => sentinelInv s.allfiles)
      (fun s w s2 hi hr2 => by
        have h'' : runWorklist env { s with newfiles := [] } w = .ok s2 := hr2
        exact runWorklist_sentinelInv
          (show sentinelInv ({ s with newfiles := [] } : BState).allfiles
            from hi) h'')
      fuel st wl st' hs hrun

/-- Claim C10, witness: in the concrete run both keys' sets hold the
sentinel; instantiated at the key of `a.py`. -/
theorem gendeps_c10_witness :
    Target.sentinel ∈
      [Target.sentinel, Target.node (rootA, ["b.py"]), Target.pyNone] :=
  (gendeps_c10 envW).2 5 initState [pa] stW
    (fun kv hkv => absurd hkv (List.not_mem_nil kv))
    (show runLoop envW 5 initState [pa] = RunResult.finished stW by decide)
    ((rootA, ["a.py"]),
      [Target.sentinel, Target.node (rootA, ["b.py"]), Target.pyNone])
    (by decide)

end Snakefood
